import Mathlib

/-!
# CorexUrl: a shallow embedding of the masking proxy

The JavaScript sources are embedded as pure Lean functions.

* A JavaScript string is a Lean `String`, that is a sequence of Unicode scalar
  values. Indices only ever flow from `indexOf`/`lastIndexOf` into `substring`,
  and the characters searched for are ASCII, so positions in the list of
  characters stand for positions in the UTF-16 string. `String.length` of the
  source is `JS.length` (UTF-16 code units).
* Mutable module state (`memoryStore`) is passed explicitly.
* Code that can throw returns `Except`.
* What the engine computes from Unicode tables (case mapping of non-ASCII text,
  IDNA host processing) and the random source are parameters.
-/

set_option autoImplicit false

/-! ## JavaScript strings -/

namespace JS

/-- The value of `s.length`: the number of UTF-16 code units of the string. -/
def length (s : List Char) : Nat :=
  (s.map (fun c => if c.toNat < 65536 then 1 else 2)).sum

/-- The value of `s.indexOf(c)` for a one-character needle, `none` for `-1`. -/
def indexOfChar (c : Char) : List Char → Option Nat
  | [] => none
  | x :: xs => if x = c then some 0 else (indexOfChar c xs).map (· + 1)

/-- The value of `s.lastIndexOf(c)` for a one-character needle, `none` for `-1`. -/
def lastIndexOfChar (c : Char) : List Char → Option Nat
  | [] => none
  | x :: xs =>
    match lastIndexOfChar c xs with
    | some i => some (i + 1)
    | none => if x = c then some 0 else none

/-- The value of `s.startsWith(needle)`. -/
def startsWith : List Char → List Char → Bool
  | _, [] => true
  | [], _ :: _ => false
  | x :: xs, n :: ns => x == n && startsWith xs ns

/-- The value of `s.includes(needle)`. -/
def includes (s needle : List Char) : Bool :=
  match s with
  | [] => needle.isEmpty
  | x :: xs => startsWith (x :: xs) needle || includes xs needle

/-- Whether every character of the text is ASCII. -/
def isAscii (s : List Char) : Bool := s.all (fun c => c.toNat < 128)

/-- The value of `s.toLowerCase()`. On ASCII text it maps `A`-`Z` to `a`-`z`;
text with other characters is lowered by the engine from the Unicode case
tables, the parameter `unicodeLower`. -/
def toLowerCase (unicodeLower : String → String) (s : String) : String :=
  if isAscii s.data then ⟨s.data.map Char.toLower⟩ else unicodeLower s

/-- The class `\s` of ECMAScript regular expressions (WhiteSpace and
LineTerminator code points). -/
def isWhiteSpace (c : Char) : Bool :=
  let n := c.toNat
  n == 0x09 || n == 0x0A || n == 0x0B || n == 0x0C || n == 0x0D || n == 0x20 ||
  n == 0xA0 || n == 0x1680 || (0x2000 ≤ n && n ≤ 0x200A) || n == 0x2028 ||
  n == 0x2029 || n == 0x202F || n == 0x205F || n == 0x3000 || n == 0xFEFF

/-- The class `[a-z0-9]` under the `i` flag (no `u` flag): the ASCII letters of
either case and the ASCII digits. -/
def isAsciiAlnum (c : Char) : Bool :=
  ('a' ≤ c && c ≤ 'z') || ('A' ≤ c && c ≤ 'Z') || ('0' ≤ c && c ≤ '9')

/-- One literal character of a pattern under the `i` flag. -/
def ciEq (c lit : Char) : Bool := c.toLower == lit

/-- The shape of a result of `uuidv4()`: lower-case hex digits and hyphens. -/
def isUuidText (uuid : String) : Bool :=
  uuid.data.all (fun c => ('0' ≤ c && c ≤ '9') || ('a' ≤ c && c ≤ 'f') || c == '-')

/-- The part of the text before the first `?` or `#`: `s.split(/[?#]/)[0]`. -/
def beforeQueryOrHash (s : List Char) : List Char :=
  s.takeWhile (fun c => c != '?' && c != '#')

/-- The part of the text after its last `/`: `s.split('/').pop()`. -/
def lastSegment (s : List Char) : List Char :=
  match lastIndexOfChar '/' s with
  | some i => s.drop (i + 1)
  | none => s

end JS

/-! ## Errors thrown by the engine -/

/-- The exceptions the embedded code can raise. -/
inductive JSError where
  | referenceError (identifier : String)
  | typeError (message : String)
  deriving DecidableEq, Repr

/-! ## src/controllers/streamController.js: identifier recovery -/

namespace streamController

/-- Lines 10-13: `getCorexIdFromParam`. -/
def getCorexIdFromParam (id : String) : String :=
  match JS.indexOfChar '.' id.data with
  | some dotIndex => ⟨id.data.take dotIndex⟩
  | none => id

end streamController

/-! ## src/controllers/proxyJsonController.js: the classifier -/

namespace proxyJsonController

/-- The test `/^\.[a-z0-9]+$/i.test(ext)` of line 28. -/
def dotAlnumTest (ext : List Char) : Bool :=
  match ext with
  | '.' :: c :: rest => (c :: rest).all JS.isAsciiAlnum
  | _ => false

/-- Line 34: `commonExtensions`. -/
def commonExtensions : List String :=
  [".mp4", ".mp3", ".srt", ".vtt", ".jpg", ".jpeg", ".png", ".webp", ".gif", ".ts", ".m3u8"]

/-- The extension format of a masked URL: a dot followed by two to five ASCII
letters or digits. -/
def isShortExtension (ext : String) : Bool :=
  match ext.data with
  | '.' :: rest => decide (2 ≤ rest.length) && decide (rest.length ≤ 5) && rest.all JS.isAsciiAlnum
  | _ => false

/-- Lines 18-50: `getFileExtension` of the JSON-masking controller. -/
def getFileExtension (unicodeLower : String → String) (url : String) : String :=
  let lowerUrl := (JS.toLowerCase unicodeLower url).data
  let pathPart := JS.beforeQueryOrHash lowerUrl
  let fromPath : Option String :=
    match JS.lastIndexOfChar '.' pathPart with
    | some lastDot =>
      let ext := pathPart.drop lastDot
      if 3 ≤ JS.length ext ∧ JS.length ext ≤ 6 ∧ dotAlnumTest ext = true then some ⟨ext⟩
      else none
    | none => none
  match fromPath with
  | some ext => ext
  | none =>
    match commonExtensions.find? (fun ext => JS.includes lowerUrl ext.data) with
    | some ext => ext
    | none =>
      if JS.includes lowerUrl "mime_type=video".data then ".mp4"
      else if JS.includes lowerUrl "mime_type=audio".data then ".mp3"
      else if JS.includes lowerUrl "mime_type=image".data then ".jpg"
      else if JS.includes lowerUrl "/video/".data || JS.includes lowerUrl "/resource/".data
        then ".mp4"
      else if JS.includes lowerUrl "/audio/".data then ".mp3"
      else if JS.includes lowerUrl "/subtitle/".data then ".srt"
      else ""

end proxyJsonController

/-! ## src/controllers/registerController.js: extension of a registration -/

namespace registerController

/-- Lines 18-24: `getFileExtension` of the registration controller. -/
def getFileExtension (url : String) : String :=
  let cleanUrl := JS.beforeQueryOrHash url.data
  match JS.lastIndexOfChar '.' cleanUrl with
  | none => ""
  | some dotIndex => ⟨cleanUrl.drop dotIndex⟩

end registerController

/-! ## src/utils/kvStore.js: the mapping store -/

namespace JS

/-- The JavaScript values that a read `memoryStore[key]` can produce, and
`null`. `inherited name` is the member `name` of `Object.prototype` (a built-in
function, or the prototype object itself for `__proto__`). -/
inductive Value where
  | undefined
  | null
  | str (s : String)
  | inherited (name : String)
  deriving DecidableEq, Repr

/-- The own property names of `Object.prototype`, which every object literal
inherits. -/
def objectPrototypeKeys : List String :=
  ["constructor", "__defineGetter__", "__defineSetter__", "hasOwnProperty",
   "__lookupGetter__", "__lookupSetter__", "isPrototypeOf", "propertyIsEnumerable",
   "toString", "valueOf", "__proto__", "toLocaleString"]

/-- Truthiness of a value (`!value` is its negation). -/
def Value.truthy : Value → Bool
  | .undefined => false
  | .null => false
  | .str s => s != ""
  | .inherited _ => true

/-- The string conversion `String(value)`, as the `URL` constructor applies it
to its argument. -/
def Value.toJSString : Value → String
  | .undefined => "undefined"
  | .null => "null"
  | .str s => s
  | .inherited name =>
    if name = "__proto__" then "[object Object]"
    else if name = "constructor" then "function Object() \x7b [native code] \x7d"
    else "function " ++ name ++ "() \x7b [native code] \x7d"

end JS

namespace kvStore

/-- Line 22: `const memoryStore = {}`, an ordinary object whose prototype is
`Object.prototype`. The state is the map of its own properties; every value
ever assigned is a string. The variable `redis` is `null` (no credentials are
configured), which selects the in-memory branches. -/
structure State where
  own : String → Option String

/-- The store of a fresh process. -/
def State.empty : State := ⟨fun _ => none⟩

/-- The property read `memoryStore[key]`: an own property, else the member of
`Object.prototype` of that name, else `undefined`. -/
def State.read (st : State) (key : String) : JS.Value :=
  match st.own key with
  | some v => .str v
  | none => if key ∈ JS.objectPrototypeKeys then .inherited key else .undefined

/-- The assignment `memoryStore[key] = value` of a string. For `__proto__` it
calls the inherited setter, which ignores a value that is not an object;
for any other key it creates or overwrites the own property. -/
def State.assign (st : State) (key value : String) : State :=
  if key = "__proto__" then st
  else ⟨fun k => if k = key then some value else st.own k⟩

/-- Lines 31-46: `storeUrl` (in-memory branch). -/
def storeUrl (st : State) (corexId originalUrl : String) : State :=
  if corexId = "" ∨ originalUrl = "" then st
  else st.assign corexId originalUrl

/-- Lines 53-65: `getUrl` (in-memory branch): `memoryStore[corexId] || null`. -/
def getUrl (st : State) (corexId : String) : JS.Value :=
  if corexId = "" then .null
  else if (st.read corexId).truthy then st.read corexId else .null

end kvStore

/-! ## JSON values -/

/-- A value produced by `JSON.parse`. The fields of an object are its own
enumerable properties in enumeration order; numbers are carried along and
never inspected. -/
inductive JSON where
  | null
  | bool (b : Bool)
  | number (n : Int)
  | str (s : String)
  | arr (items : List JSON)
  | obj (fields : List (String × JSON))
  deriving Repr

namespace JS

/-- The assignment `wrapped[key] = value` on an object literal. For `__proto__`
it calls the inherited setter and creates no own property; otherwise it
overwrites the own property or appends a new one. -/
def setProperty (fields : List (String × JSON)) (key : String) (value : JSON) :
    List (String × JSON) :=
  if key = "__proto__" then fields
  else if fields.any (fun kv => kv.1 == key) then
    fields.map (fun kv => if kv.1 == key then (key, value) else kv)
  else fields ++ [(key, value)]

end JS

namespace proxyJsonController

/-- Lines 9-11: `generateCorexId`, given the result of `uuidv4()`. -/
def generateCorexId (uuid : String) : String :=
  "cx_" ++ ⟨uuid.data.filter (fun c => c != '-')⟩

/-- The test `/^https?:\/\/\S+$/i.test(value)` of line 59, after the scheme
letters: `:\/\/\S+$`. -/
def httpUrlTail (s : List Char) : Bool :=
  match s with
  | ':' :: '/' :: '/' :: c :: rest => (c :: rest).all (fun x => !JS.isWhiteSpace x)
  | _ => false

/-- The test `/^https?:\/\/\S+$/i.test(value)` of line 59. -/
def httpUrlTest (s : List Char) : Bool :=
  match s with
  | h :: t1 :: t2 :: p :: rest =>
    JS.ciEq h 'h' && JS.ciEq t1 't' && JS.ciEq t2 't' && JS.ciEq p 'p' &&
      (httpUrlTail rest ||
        match rest with
        | s :: rest1 => JS.ciEq s 's' && httpUrlTail rest1
        | [] => false)
  | _ => false

/-- Line 86: `webExtensions`. -/
def webExtensions : List String :=
  [".html", ".htm", ".php", ".aspx", ".jsp", ".js", ".css", ".json"]

/-- Line 93: `commonMedia`. -/
def commonMedia : List String :=
  [".mp4", ".mp3", ".mkv", ".avi", ".mov", ".srt", ".vtt", ".ts", ".m3u8", ".webp",
   ".jpg", ".png"]

/-- Line 100: the keyword list of rule 3. -/
def mediaKeywords : List String :=
  ["/video/", "/audio/", "/media/", "/storage/", "/resource/", "/source/", "cdn",
   "cloudfront"]

/-- The binding of the identifier `lowerValue` that lines 80, 94, 99 and 101
of `isValidUrl` read. The function declares no such variable or parameter, the
module declares none, and nothing defines a global of that name: the
identifier does not resolve. -/
def lowerValueBinding : Option String := none

/-- Lines 79-105 of `isValidUrl`, for a value of `lowerValue`. -/
def isValidUrlRules (unicodeLower : String → String) (lowerValue : String) : Bool :=
  let pathPart := JS.beforeQueryOrHash lowerValue.data
  let lastSegment := JS.lastSegment pathPart
  let byPath : Bool :=
    match JS.lastIndexOfChar '.' lastSegment with
    | some i =>
      let ext := JS.toLowerCase unicodeLower ⟨lastSegment.drop i⟩
      !webExtensions.contains ext && decide (3 ≤ JS.length ext.data) &&
        decide (JS.length ext.data ≤ 6)
    | none => false
  byPath || commonMedia.any (fun ext => JS.includes lowerValue.data ext.data) ||
    JS.includes lowerValue.data "mime_type=".data ||
    mediaKeywords.any (fun k => JS.includes lowerValue.data k.data)

/-- Lines 58-106: `isValidUrl`. A value that passes the check of line 59
reaches line 80, whose read of `lowerValue` throws a `ReferenceError` when the
identifier does not resolve. -/
def isValidUrl (unicodeLower : String → String) (value : JSON) : Except JSError Bool :=
  match value with
  | .str s =>
    if !httpUrlTest s.data then .ok false
    else
      match lowerValueBinding with
      | none => .error (.referenceError "lowerValue")
      | some lowerValue => .ok (isValidUrlRules unicodeLower lowerValue)
  | _ => .ok false

/-- What `wrapJson` reads and writes besides its arguments: the mapping store
and the number of identifiers drawn so far from the random source. -/
structure Heap where
  store : kvStore.State
  drawn : Nat

/-- Lines 116-121 of `wrapJson`: the replacement of a maskable string. -/
def maskString (unicodeLower : String → String) (uuidv4 : Nat → String) (baseUrl : String)
    (value : String) (h : Heap) : JSON × Heap :=
  let corexId := generateCorexId (uuidv4 h.drawn)
  let extension := getFileExtension unicodeLower value
  (.str (baseUrl ++ "/" ++ corexId ++ extension),
   ⟨kvStore.storeUrl h.store corexId value, h.drawn + 1⟩)

mutual

/-- Lines 114-141: `wrapJson`. `uuidv4 n` is the result of the `n`-th call of
`uuidv4()`. -/
def wrapJson (unicodeLower : String → String) (uuidv4 : Nat → String) (baseUrl : String) :
    JSON → Heap → Except JSError (JSON × Heap)
  | .str s, h =>
    match isValidUrl unicodeLower (.str s) with
    | .error e => .error e
    | .ok true => .ok (maskString unicodeLower uuidv4 baseUrl s h)
    | .ok false => .ok (.str s, h)
  | .arr items, h =>
    match wrapItems unicodeLower uuidv4 baseUrl items h with
    | .error e => .error e
    | .ok (items1, h1) => .ok (.arr items1, h1)
  | .obj fields, h =>
    match wrapFields unicodeLower uuidv4 baseUrl fields [] h with
    | .error e => .error e
    | .ok (wrapped, h1) => .ok (.obj wrapped, h1)
  | .null, h => .ok (.null, h)
  | .bool b, h => .ok (.bool b, h)
  | .number n, h => .ok (.number n, h)

/-- Line 125: `value.map((item) => wrapJson(item, baseUrl))`, left to right. -/
def wrapItems (unicodeLower : String → String) (uuidv4 : Nat → String) (baseUrl : String) :
    List JSON → Heap → Except JSError (List JSON × Heap)
  | [], h => .ok ([], h)
  | item :: rest, h =>
    match wrapJson unicodeLower uuidv4 baseUrl item h with
    | .error e => .error e
    | .ok (item1, h1) =>
      match wrapItems unicodeLower uuidv4 baseUrl rest h1 with
      | .error e => .error e
      | .ok (rest1, h2) => .ok (item1 :: rest1, h2)

/-- Lines 130-136: the loop over the own keys, `wrapped` being the object built
so far. -/
def wrapFields (unicodeLower : String → String) (uuidv4 : Nat → String) (baseUrl : String) :
    List (String × JSON) → List (String × JSON) → Heap →
      Except JSError (List (String × JSON) × Heap)
  | [], wrapped, h => .ok (wrapped, h)
  | (key, value) :: rest, wrapped, h =>
    match wrapJson unicodeLower uuidv4 baseUrl value h with
    | .error e => .error e
    | .ok (value1, h1) =>
      wrapFields unicodeLower uuidv4 baseUrl rest (JS.setProperty wrapped key value1) h1

end

end proxyJsonController

/-! ## The URL API of the engine

`new URL(x)`, `url.protocol`, `url.searchParams.append` and `url.toString()`
are provided by Node.js and follow the WHATWG URL Standard. The serialiser
and the `application/x-www-form-urlencoded` algorithms are modelled in full.
The parser is modelled for `http:` and `https:` inputs whose authority is a
plain ASCII host name with an optional port; every other input that has a
scheme is handed to the parameter `engine`, which stands for the engine's own
parser. -/

namespace URL

/-- The UTF-8 encoding of one scalar value. -/
def utf8EncodeChar (c : Char) : List Nat :=
  let n := c.toNat
  if n < 0x80 then [n]
  else if n < 0x800 then [0xC0 + n / 64, 0x80 + n % 64]
  else if n < 0x10000 then [0xE0 + n / 4096, 0x80 + n / 64 % 64, 0x80 + n % 64]
  else [0xF0 + n / 262144, 0x80 + n / 4096 % 64, 0x80 + n / 64 % 64, 0x80 + n % 64]

/-- UTF-8 encode. -/
def utf8Encode (s : List Char) : List Nat := s.flatMap utf8EncodeChar

/-- What the UTF-8 decoder does with a byte when no sequence is pending. -/
inductive Lead where
  | emit (c : Char)
  | start (needed cp lower upper : Nat)

/-- The replacement character U+FFFD. -/
def replacement : Char := Char.ofNat 0xFFFD

/-- The UTF-8 decoder of the Encoding Standard on a byte read while no
sequence is pending. -/
def utf8Lead (b : Nat) : Lead :=
  if b ≤ 0x7F then .emit (Char.ofNat b)
  else if 0xC2 ≤ b ∧ b ≤ 0xDF then .start 1 (b % 32) 0x80 0xBF
  else if 0xE0 ≤ b ∧ b ≤ 0xEF then
    .start 2 (b % 16) (if b = 0xE0 then 0xA0 else 0x80) (if b = 0xED then 0x9F else 0xBF)
  else if 0xF0 ≤ b ∧ b ≤ 0xF4 then
    .start 3 (b % 8) (if b = 0xF0 then 0x90 else 0x80) (if b = 0xF4 then 0x8F else 0xBF)
  else .emit replacement

/-- The UTF-8 decoder of the Encoding Standard (errors become U+FFFD). The
second argument is the pending sequence, if any: the number of bytes still
needed, the code point so far and the bounds for the next byte. -/
def utf8DecodeFrom : List Nat → Option (Nat × Nat × Nat × Nat) → List Char
  | [], none => []
  | [], some _ => [replacement]
  | b :: rest, none =>
    match utf8Lead b with
    | .emit c => c :: utf8DecodeFrom rest none
    | .start n cp lo hi => utf8DecodeFrom rest (some (n, cp, lo, hi))
  | b :: rest, some (n, cp, lo, hi) =>
    if lo ≤ b ∧ b ≤ hi then
      if n = 1 then Char.ofNat (cp * 64 + b % 64) :: utf8DecodeFrom rest none
      else utf8DecodeFrom rest (some (n - 1, cp * 64 + b % 64, 0x80, 0xBF))
    else
      match utf8Lead b with
      | .emit c => replacement :: c :: utf8DecodeFrom rest none
      | .start n1 cp1 lo1 hi1 => replacement :: utf8DecodeFrom rest (some (n1, cp1, lo1, hi1))

/-- UTF-8 decode without BOM. -/
def utf8Decode (bytes : List Nat) : List Char := utf8DecodeFrom bytes none

/-- The value of an ASCII hex digit. -/
def hexValue (b : Nat) : Option Nat :=
  if 0x30 ≤ b ∧ b ≤ 0x39 then some (b - 0x30)
  else if 0x41 ≤ b ∧ b ≤ 0x46 then some (b - 0x37)
  else if 0x61 ≤ b ∧ b ≤ 0x66 then some (b - 0x57)
  else none

/-- Percent-decode a byte sequence; `skip` counts the hex digits of a decoded
triple that are still to be passed over. -/
def percentDecodeFrom : List Nat → Nat → List Nat
  | [], _ => []
  | _ :: rest, skip + 1 => percentDecodeFrom rest skip
  | b :: rest, 0 =>
    match b == 0x25, rest with
    | true, h1 :: h2 :: _ =>
      match hexValue h1, hexValue h2 with
      | some x, some y => (x * 16 + y) :: percentDecodeFrom rest 2
      | _, _ => b :: percentDecodeFrom rest 0
    | _, _ => b :: percentDecodeFrom rest 0

/-- Percent-decode a byte sequence. -/
def percentDecode (bytes : List Nat) : List Nat := percentDecodeFrom bytes 0

/-- The upper-case hex digit of a value below 16. -/
def hexDigit (n : Nat) : Nat := if n < 10 then 0x30 + n else 0x37 + n

/-- Percent-encode a byte: `%` and two upper-case hex digits. -/
def percentEncodeByte (b : Nat) : List Nat := [0x25, hexDigit (b / 16), hexDigit (b % 16)]

/-- The bytes that `application/x-www-form-urlencoded` leaves as they are:
ASCII alphanumerics and `*`, `-`, `.`, `_`. -/
def urlencodedPlain (b : Nat) : Bool :=
  (0x30 ≤ b && b ≤ 0x39) || (0x41 ≤ b && b ≤ 0x5A) || (0x61 ≤ b && b ≤ 0x7A) ||
  b == 0x2A || b == 0x2D || b == 0x2E || b == 0x5F

/-- Percent-encode one byte after encoding, with the urlencoded set and
space as plus. -/
def urlencodedByte (b : Nat) : List Nat :=
  if b = 0x20 then [0x2B]
  else if urlencodedPlain b then [b]
  else percentEncodeByte b

/-- The urlencoded form of a name or a value. -/
def urlencodedString (s : String) : List Nat :=
  (utf8Encode s.data).flatMap urlencodedByte

/-- The `application/x-www-form-urlencoded` serialiser, as bytes. -/
def serializeUrlencoded : List (String × String) → List Nat
  | [] => []
  | [(name, value)] => urlencodedString name ++ 0x3D :: urlencodedString value
  | (name, value) :: rest =>
    urlencodedString name ++ 0x3D :: urlencodedString value ++ 0x26 :: serializeUrlencoded rest

/-- Split a byte sequence at every occurrence of a separator. -/
def splitBytes (sep : Nat) : List Nat → List (List Nat)
  | [] => [[]]
  | b :: rest =>
    if b = sep then [] :: splitBytes sep rest
    else
      match splitBytes sep rest with
      | [] => [[b]]
      | s :: ss => (b :: s) :: ss

/-- A name or a value of the urlencoded parser: plus to space, percent-decode,
UTF-8 decode without BOM. -/
def decodeComponent (bytes : List Nat) : String :=
  ⟨utf8Decode (percentDecode (bytes.map (fun b => if b = 0x2B then 0x20 else b)))⟩

/-- The `application/x-www-form-urlencoded` parser. -/
def parseUrlencoded (input : List Nat) : List (String × String) :=
  (splitBytes 0x26 input).filterMap (fun bytes =>
    if bytes = [] then none
    else
      some (decodeComponent (bytes.takeWhile (· != 0x3D)),
            decodeComponent ((bytes.dropWhile (· != 0x3D)).drop 1)))

/-- The path of a URL record. -/
inductive Path where
  | opaque_ (text : String)
  | segments (items : List String)
  deriving DecidableEq, Repr

/-- A URL record. The host is kept in serialised form. -/
structure Record where
  scheme : String
  username : String
  password : String
  host : Option String
  port : Option Nat
  path : Path
  query : Option String
  fragment : Option String
  deriving DecidableEq, Repr

/-- The URL serialiser (`url.href`, `url.toString()`). -/
def Record.href (r : Record) : String :=
  let authority : String :=
    match r.host with
    | none => ""
    | some host =>
      "//" ++
      (if r.username ≠ "" ∨ r.password ≠ "" then
        r.username ++ (if r.password ≠ "" then ":" ++ r.password else "") ++ "@"
       else "") ++
      host ++
      (match r.port with
       | none => ""
       | some p => ":" ++ Nat.repr p)
  let path : String :=
    match r.path with
    | .opaque_ text => text
    | .segments items =>
      (match r.host, items with
       | none, first :: _ :: _ => if first = "" then "/." else ""
       | _, _ => "") ++
      String.join (items.map (fun seg => "/" ++ seg))
  r.scheme ++ ":" ++ authority ++ path ++
    (match r.query with
     | none => ""
     | some q => "?" ++ q) ++
    (match r.fragment with
     | none => ""
     | some f => "#" ++ f)

/-- The getter `url.protocol`. -/
def Record.protocol (r : Record) : String := r.scheme ++ ":"

/-- The C0 control percent-encode set. -/
def c0ControlSet (n : Nat) : Bool := n ≤ 0x1F || 0x7E < n

/-- The fragment percent-encode set. -/
def fragmentSet (n : Nat) : Bool :=
  c0ControlSet n || n == 0x20 || n == 0x22 || n == 0x3C || n == 0x3E || n == 0x60

/-- The query percent-encode set. -/
def querySet (n : Nat) : Bool :=
  c0ControlSet n || n == 0x20 || n == 0x22 || n == 0x23 || n == 0x3C || n == 0x3E

/-- The special-query percent-encode set. -/
def specialQuerySet (n : Nat) : Bool := querySet n || n == 0x27

/-- The path percent-encode set, for code points other than `^` (which the
parser below does not handle). -/
def pathSet (n : Nat) : Bool :=
  querySet n || n == 0x3F || n == 0x60 || n == 0x7B || n == 0x7D

/-- UTF-8 percent-encode every code point of a text that is in the given set. -/
def percentEncodeText (set : Nat → Bool) (s : List Char) : String :=
  ⟨s.flatMap (fun c =>
    if set c.toNat then ((utf8EncodeChar c).flatMap percentEncodeByte).map Char.ofNat
    else [c])⟩

/-- Split a text at every character that satisfies `p`. -/
def splitChars (p : Char → Bool) : List Char → List (List Char)
  | [] => [[]]
  | c :: rest =>
    if p c then [] :: splitChars p rest
    else
      match splitChars p rest with
      | [] => [[c]]
      | s :: ss => (c :: s) :: ss

/-- A single-dot URL path segment. -/
def isSingleDot (seg : String) : Bool :=
  let l : String := ⟨seg.data.map Char.toLower⟩
  l == "." || l == "%2e"

/-- A double-dot URL path segment. -/
def isDoubleDot (seg : String) : Bool :=
  let l : String := ⟨seg.data.map Char.toLower⟩
  l == ".." || l == ".%2e" || l == "%2e." || l == "%2e%2e"

/-- The path state of the parser at the end of one segment; `isLast` says that
the segment was ended by the end of the path and not by a slash. -/
def pathStep (path : List String) (seg : String) (isLast : Bool) : List String :=
  if isDoubleDot seg then
    if isLast then path.dropLast ++ [""] else path.dropLast
  else if isSingleDot seg then
    if isLast then path ++ [""] else path
  else path ++ [seg]

/-- The path state of the parser over the segments of the input. -/
def parsePath : List (List Char) → List String → List String
  | [], path => path
  | [seg], path => pathStep path (percentEncodeText pathSet seg) true
  | seg :: rest, path => parsePath rest (pathStep path (percentEncodeText pathSet seg) false)

/-- The characters that end the authority of a special URL. -/
def endsAuthority (c : Char) : Bool := c == '/' || c == '\\' || c == '?' || c == '#'

/-- A slash or a backslash. -/
def isSlash (c : Char) : Bool := c == '/' || c == '\\'

/-- The host parser on the host names it is modelled for: labels of ASCII
letters, digits, `-` and `_`, none empty, none starting with `xn--`, the last
one not starting with a digit (so the host is neither an IPv4 address nor
Punycode). The result is the lower-cased name; `none` means that the host is
outside this class. -/
def plainHost (host : List Char) : Option String :=
  let lower := host.map Char.toLower
  let labels := splitChars (· == '.') lower
  if host.all (fun c => JS.isAsciiAlnum c || c == '-' || c == '_' || c == '.') &&
     labels.all (fun l => !l.isEmpty && !JS.startsWith l "xn--".data) &&
     (match labels.getLast? with
      | some (c :: _) => !c.isDigit
      | _ => false)
  then some ⟨lower⟩ else none

/-- The decimal value of a text of ASCII digits. -/
def decimalValue (digits : List Char) : Nat :=
  digits.foldl (fun acc c => acc * 10 + (c.toNat - 0x30)) 0

/-- The default port of a scheme. -/
def defaultPort (scheme : String) : Option Nat :=
  if scheme = "http" then some 80 else if scheme = "https" then some 443 else none

/-- The result of the modelled part of the parser. -/
inductive Parsed where
  | failure
  | record (r : Record)
  | deferred
  deriving DecidableEq, Repr

/-- The parser from the path start state on, host and port being known. -/
def parseFromPath (scheme host : String) (port : Option Nat) (tail : List Char) : Parsed :=
  let pathText := tail.takeWhile (fun c => c != '?' && c != '#')
  let afterPath := tail.dropWhile (fun c => c != '?' && c != '#')
  if pathText.contains '^' then .deferred
  else
    let body := match pathText with
      | c :: rest => if isSlash c then rest else c :: rest
      | [] => []
    let path := parsePath (splitChars isSlash body) []
    let query : Option String :=
      match afterPath with
      | '?' :: q => some (percentEncodeText specialQuerySet (q.takeWhile (· != '#')))
      | _ => none
    let fragment : Option String :=
      match afterPath.dropWhile (· != '#') with
      | '#' :: f => some (percentEncodeText fragmentSet f)
      | _ => none
    .record ⟨scheme, "", "", some host, port, .segments path, query, fragment⟩

/-- The parser after the scheme of a special URL: slashes, authority, port. -/
def parseSpecial (scheme : String) (rest : List Char) : Parsed :=
  let afterSlashes := rest.dropWhile isSlash
  let authority := afterSlashes.takeWhile (fun c => !endsAuthority c)
  let tail := afterSlashes.dropWhile (fun c => !endsAuthority c)
  if authority.contains '@' || authority.contains '[' || authority.contains ']' then .deferred
  else
    let hostText := authority.takeWhile (· != ':')
    let portText := (authority.dropWhile (· != ':')).drop 1
    if hostText.isEmpty then .failure
    else
      match plainHost hostText with
      | none => .deferred
      | some host =>
        if !portText.all Char.isDigit then .failure
        else if portText.isEmpty then parseFromPath scheme host none tail
        else if 65535 < decimalValue portText then .failure
        else
          parseFromPath scheme host
            (if some (decimalValue portText) = defaultPort scheme then none
             else some (decimalValue portText)) tail

/-- A character of a scheme after its first. -/
def isSchemeChar (c : Char) : Bool :=
  JS.isAsciiAlnum c || c == '+' || c == '-' || c == '.'

/-- Remove leading C0 controls and spaces. -/
def trimStart (s : List Char) : List Char := s.dropWhile (fun c => c.toNat ≤ 0x20)

/-- The basic URL parser without a base URL, as far as it is modelled: the
input is stripped of leading and trailing C0 controls and spaces and of all
tabs and newlines; an input without a scheme fails; an input whose scheme is
not `http` or `https` is deferred. -/
def basicParse (input : String) : Parsed :=
  let stripped := (trimStart (trimStart input.data).reverse).reverse
  let s := stripped.filter (fun c => c != '\t' && c != '\n' && c != '\r')
  match s with
  | [] => .failure
  | c :: _ =>
    if !c.isAlpha then .failure
    else
      match s.dropWhile isSchemeChar with
      | ':' :: rest =>
        let scheme : String := ⟨(s.takeWhile isSchemeChar).map Char.toLower⟩
        if scheme = "http" ∨ scheme = "https" then parseSpecial scheme rest
        else .deferred
      | _ => .failure

/-- The URL parser: `none` is the `TypeError` that `new URL(input)` throws. -/
def parse (engine : String → Option Record) (input : String) : Option Record :=
  match basicParse input with
  | .failure => none
  | .record r => some r
  | .deferred => engine input

/-- A `URL` object: its record and the list of its `searchParams` object. -/
structure Object where
  record : Record
  list : List (String × String)

/-- The query parameters of a record: the urlencoded parse of its query. -/
def Record.searchParams (r : Record) : List (String × String) :=
  match r.query with
  | none => []
  | some q => parseUrlencoded (utf8Encode q.data)

/-- The constructor: `new URL(input)`. -/
def construct (engine : String → Option Record) (input : String) : Option Object :=
  match parse engine input with
  | none => none
  | some r => some ⟨r, r.searchParams⟩

/-- The method `url.searchParams.append(name, value)`: append to the list, then
set the query of the URL to the serialisation of the list (to null when that
is empty). -/
def Object.append (u : Object) (name value : String) : Object :=
  let list := u.list ++ [(name, value)]
  let serialized : String := ⟨(serializeUrlencoded list).map Char.ofNat⟩
  ⟨{ u.record with query := if serialized = "" then none else some serialized }, list⟩

end URL

/-! ## src/middlewares/validateUrl.js -/

/-- What the middleware does with a request: call `next()`, or answer 400 with
the given `error` text. -/
inductive ValidateResult where
  | next
  | badRequest (error : String)
  deriving DecidableEq, Repr

/-- Lines 10-43: `validateUrl`, applied to `req.body.url` (`none` when the body
has no such member). -/
def validateUrl (engine : String → Option URL.Record) (url : Option JSON) : ValidateResult :=
  match url with
  | some (.str url) =>
    if url = "" then .badRequest "Invalid Request"
    else
      match URL.parse engine url with
      | none => .badRequest "Invalid URL Format"
      | some parsed =>
        if parsed.protocol ∈ ["http:", "https:"] then .next
        else .badRequest "Invalid Protocol"
  | _ => .badRequest "Invalid Request"

/-! ## src/controllers/registerController.js: registration -/

namespace registerController

/-- Lines 9-11: `generateCorexId`, given the result of `uuidv4()`. -/
def generateCorexId (uuid : String) : String :=
  "cx_" ++ ⟨uuid.data.filter (fun c => c != '-')⟩

/-- The JSON answer of `registerUrl`. -/
structure Response where
  status : Nat
  corexId : String
  corexUrl : String
  deriving DecidableEq, Repr

/-- Lines 33-60: `registerUrl` with the in-memory store, whose `storeUrl` does
not throw. `uuid` is the result of `uuidv4()`, `protocol` and `host` are
`req.protocol` and `req.get("host")`, `url` is `req.body.url`. -/
def registerUrl (st : kvStore.State) (uuid protocol host url : String) :
    kvStore.State × Response :=
  let corexId := generateCorexId uuid
  let extension := getFileExtension url
  let st1 := kvStore.storeUrl st corexId url
  let baseUrl := protocol ++ "://" ++ host ++ "/corex"
  let corexUrl := baseUrl ++ "/" ++ corexId ++ extension
  (st1, ⟨200, corexId, corexUrl⟩)

end registerController

/-! ## src/controllers/streamController.js: the relay -/

namespace streamController

/-- The parts of the inbound request that `streamMedia` reads: `req.params.id`,
the entries of `req.query` in the order of `Object.entries` (values as their
string conversion), and `req.headers.range`. -/
structure Request where
  id : String
  query : List (String × String)
  range : Option String

/-- The upstream response as `node-fetch` presents it: the status and the
header lines. -/
structure Upstream where
  status : Nat
  headers : List (String × String)

/-- The getter `response.ok`: a status from 200 to 299. -/
def Upstream.ok (up : Upstream) : Bool := 200 ≤ up.status && up.status ≤ 299

/-- The method `response.headers.get(name)`: the values of the header lines
with that name, case-insensitively, joined by a comma and a space; `none` is
`null`. -/
def Upstream.get (up : Upstream) (name : String) : Option String :=
  let lower (s : String) : String := ⟨s.data.map Char.toLower⟩
  match (up.headers.filter (fun h => lower h.1 == lower name)).map (·.2) with
  | [] => none
  | values => some (", ".intercalate values)

/-- The body of an outbound response: a JSON object with the members `error`,
`message` and, on a 404, `corexId`; or the upstream body, piped. -/
inductive Body where
  | json (error message : String) (corexId : Option String)
  | piped
  deriving DecidableEq, Repr

/-- The outbound response: its status, the headers set by `res.setHeader` in
the order of the calls, and its body. -/
structure Response where
  status : Nat
  headers : List (String × String)
  body : Body
  deriving DecidableEq, Repr

/-- The call `res.setHeader(name, value)`. -/
def setHeader (headers : List (String × String)) (name value : String) :
    List (String × String) :=
  let lower (s : String) : String := ⟨s.data.map Char.toLower⟩
  if headers.any (fun h => lower h.1 == lower name) then
    headers.map (fun h => if lower h.1 == lower name then (name, value) else h)
  else headers ++ [(name, value)]

/-- The call `res.setHeader(name, value)` guarded by `if (value)`. -/
def setHeaderIfTruthy (headers : List (String × String)) (name : String)
    (value : Option String) : List (String × String) :=
  match value with
  | some v => if v ≠ "" then setHeader headers name v else headers
  | none => headers

/-- Where `streamMedia` stands when it reaches `await fetch(...)`, or the
response it has sent before. -/
inductive Step where
  | respond (r : Response)
  | fetch (url : String) (range : Option String)
  deriving DecidableEq, Repr

/-- The answer of the `catch` block, lines 97-103. -/
def internalError : Response :=
  ⟨500, [], .json "Internal Server Error" "Failed to stream media. Please try again later."
    none⟩

/-- Lines 50-53: the `Range` header of the upstream request, copied from the
inbound request when `req.headers.range` is truthy. -/
def forwardedRange (range : Option String) : Option String :=
  match range with
  | some r => if r ≠ "" then some r else none
  | none => none

/-- Lines 22-56 of `streamMedia`: up to the call of `fetch`, with the URL and
the `Range` header it is called with. -/
def beforeFetch (engine : String → Option URL.Record) (st : kvStore.State) (req : Request) :
    Step :=
  let corexId := getCorexIdFromParam req.id
  let finalUrl := kvStore.getUrl st corexId
  if !finalUrl.truthy then .respond ⟨404, [], .json "Not Found" "Corex resource not found" (some corexId)⟩
  else
    match URL.construct engine finalUrl.toJSString with
    | none => .respond internalError
    | some originalErrors =>
      let appended := req.query.foldl (fun u kv => u.append kv.1 kv.2) originalErrors
      .fetch appended.record.href (forwardedRange req.range)

/-- Lines 57-96 of `streamMedia`: from the upstream response on. -/
def relay (up : Upstream) : Response :=
  if !up.ok then ⟨502, [], .json "Bad Gateway" "Failed to fetch upstream resource" none⟩
  else
    let contentType := up.get "content-type"
    let contentLength := up.get "content-length"
    let acceptRanges := up.get "accept-ranges"
    let contentRange := up.get "content-range"
    let contentDisposition := up.get "content-disposition"
    let h1 := setHeaderIfTruthy [] "Content-Type" contentType
    let h2 := setHeaderIfTruthy h1 "Content-Length" contentLength
    let h3 := setHeaderIfTruthy h2 "Accept-Ranges" acceptRanges
    let h4 := setHeaderIfTruthy h3 "Content-Disposition" contentDisposition
    let status := if contentRange.any (· ≠ "") then 206 else 200
    let h5 := setHeaderIfTruthy h4 "Content-Range" contentRange
    let h6 := setHeader h5 "X-Content-Type-Options" "nosniff"
    let h7 := setHeader h6 "Cache-Control" "public, max-age=31536000, immutable"
    let h8 := setHeader h7 "X-Frame-Options" "SAMEORIGIN"
    ⟨status, h8, .piped⟩

/-- The header names that lines 65-88 copy from the upstream response, in the
order of the `res.setHeader` calls. -/
def copiedHeaderNames : List String :=
  ["Content-Type", "Content-Length", "Accept-Ranges", "Content-Disposition", "Content-Range"]

/-- The headers that lines 91-93 set on every relayed response. -/
def fixedHeaders : List (String × String) :=
  [("X-Content-Type-Options", "nosniff"),
   ("Cache-Control", "public, max-age=31536000, immutable"),
   ("X-Frame-Options", "SAMEORIGIN")]

/-- A header of the upstream response as the relay copies it: the name with
the value of `headers.get`, when that value is truthy. -/
def copiedHeader (up : Upstream) (name : String) : Option (String × String) :=
  match up.get name with
  | some v => if v ≠ "" then some (name, v) else none
  | none => none

/-- Lines 22-104: `streamMedia`. `fetch url range` is the outcome of the
upstream request: the response, or the error with which the promise rejects. -/
def streamMedia (engine : String → Option URL.Record)
    (fetch : String → Option String → Except JSError Upstream)
    (st : kvStore.State) (req : Request) : Response :=
  match beforeFetch engine st req with
  | .respond r => r
  | .fetch url range =>
    match fetch url range with
    | .error _ => internalError
    | .ok up => relay up

end streamController

/-! ## src/utils/generateCorexId.js and the identifiers of the controllers -/

namespace JS

/-- The characters `[A-Za-z0-9_-]`. -/
def isUrlSafeChar (c : Char) : Bool := isAsciiAlnum c || c == '_' || c == '-'

/-- The code point of the letter with the given index in the base64url
alphabet `A-Z`, `a-z`, `0-9`, `-`, `_`. -/
def base64urlCode (n : Nat) : Nat :=
  if n < 26 then 65 + n
  else if n < 52 then 71 + n
  else if n < 62 then n - 4
  else if n = 62 then 45
  else 95

/-- The letter with the given index in the base64url alphabet. -/
def base64urlChar (n : Nat) : Char := Char.ofNat (base64urlCode n)

/-- The value of `buffer.toString("base64url")`: every three bytes give four
letters, a rest of one or two bytes gives two or three letters, and no padding
is written. -/
def base64url : List Nat → List Char
  | b0 :: b1 :: b2 :: rest =>
    base64urlChar (b0 / 4) :: base64urlChar (b0 % 4 * 16 + b1 / 16) ::
      base64urlChar (b1 % 16 * 4 + b2 / 64) :: base64urlChar (b2 % 64) :: base64url rest
  | [b0, b1] =>
    [base64urlChar (b0 / 4), base64urlChar (b0 % 4 * 16 + b1 / 16), base64urlChar (b1 % 16 * 4)]
  | [b0] => [base64urlChar (b0 / 4), base64urlChar (b0 % 4 * 16)]
  | [] => []

end JS

namespace utils

/-- Lines 9-12 of src/utils/generateCorexId.js: `generateCorexId`.
`randomBytes n` is the content of the buffer that `crypto.randomBytes(n)`
returns. -/
def generateCorexId (randomBytes : Nat → List Nat) : String :=
  "cx_" ++ ⟨JS.base64url (randomBytes 9)⟩

end utils

/-! ## The function `v4` of the `uuid` package

Both controllers draw their identifiers from `uuidv4()`. The package is a
dependency of the repository; its `v4` takes 16 random bytes, overwrites the
four version bits and the two variant bits (RFC 4122) and writes the bytes as
lower-case hex digits in groups of 8, 4, 4, 4 and 12. -/

namespace uuid

/-- A lower-case hex digit. -/
def hexLower (n : Nat) : Char := Char.ofNat (if n < 10 then 48 + n else 87 + n)

/-- The two hex digits of a byte: `byteToHex[b]`. -/
def byteToHex (b : Nat) : List Char := [hexLower (b / 16), hexLower (b % 16)]

/-- The bytes after `rnds[6] = (rnds[6] & 0x0f) | 0x40` and
`rnds[8] = (rnds[8] & 0x3f) | 0x80`. -/
def versioned (rnds : List Nat) : List Nat :=
  (rnds.set 6 (rnds.getD 6 0 % 16 + 0x40)).set 8 (rnds.getD 8 0 % 64 + 0x80)

/-- The hex digits of the bytes from index `i` on, with a hyphen before the
bytes 4, 6, 8 and 10. -/
def stringifyFrom : Nat → List Nat → List Char
  | _, [] => []
  | i, b :: rest =>
    (if i = 4 ∨ i = 6 ∨ i = 8 ∨ i = 10 then ['-'] else []) ++ byteToHex b ++
      stringifyFrom (i + 1) rest

/-- The value of `uuidv4()` when the random source supplies the 16 bytes
`rnds`. -/
def v4 (rnds : List Nat) : String := ⟨stringifyFrom 0 (versioned rnds)⟩

end uuid

/-! ## Lemmas on strings -/

theorem JS.indexOfChar_eq_none {c : Char} {l : List Char} (h : c ∉ l) :
    JS.indexOfChar c l = none := by
  induction l with
  | nil => rfl
  | cons x xs ih =>
    simp only [List.mem_cons, not_or] at h
    simp [JS.indexOfChar, Ne.symm h.1, ih h.2]

theorem JS.indexOfChar_append_cons {c : Char} {l : List Char} (rest : List Char) (h : c ∉ l) :
    JS.indexOfChar c (l ++ c :: rest) = some l.length := by
  induction l with
  | nil => simp [JS.indexOfChar]
  | cons x xs ih =>
    simp only [List.mem_cons, not_or] at h
    simp [JS.indexOfChar, Ne.symm h.1, ih h.2]

theorem JS.indexOfChar_some {c : Char} {l : List Char} {i : Nat}
    (h : JS.indexOfChar c l = some i) :
    l.take i = l.takeWhile (· != c) ∧ l.drop i = c :: l.drop (i + 1) := by
  induction l generalizing i with
  | nil => simp [JS.indexOfChar] at h
  | cons x xs ih =>
    by_cases hx : x = c
    · subst hx
      simp [JS.indexOfChar] at h
      subst h
      simp
    · simp only [JS.indexOfChar, hx, if_false, Option.map_eq_some'] at h
      obtain ⟨j, hj, rfl⟩ := h
      have := ih hj
      simp [this.1, this.2, hx]

theorem JS.not_mem_takeWhile_ne (c : Char) (l : List Char) : c ∉ l.takeWhile (· != c) := by
  intro h
  have := List.mem_takeWhile_imp h
  simp at this

theorem JS.takeWhile_ne_of_not_mem {c : Char} {l : List Char} (h : c ∉ l) :
    l.takeWhile (· != c) = l := by
  induction l with
  | nil => rfl
  | cons x xs ih =>
    simp only [List.mem_cons, not_or] at h
    have hx : (x != c) = true := by simpa using Ne.symm h.1
    simp [List.takeWhile_cons, hx, ih h.2]

theorem JS.not_mem_of_indexOfChar_none {c : Char} {l : List Char}
    (h : JS.indexOfChar c l = none) : c ∉ l := by
  induction l with
  | nil => simp
  | cons x xs ih =>
    by_cases hx : x = c
    · simp [JS.indexOfChar, hx] at h
    · simp only [JS.indexOfChar, hx, if_false, Option.map_eq_none'] at h
      simp [Ne.symm hx, ih h]

theorem streamController.getCorexIdFromParam_data (id : String) :
    (streamController.getCorexIdFromParam id).data = id.data.takeWhile (· != '.') := by
  unfold streamController.getCorexIdFromParam
  cases h : JS.indexOfChar '.' id.data with
  | none => simp [JS.takeWhile_ne_of_not_mem (JS.not_mem_of_indexOfChar_none h)]
  | some i => simp [(JS.indexOfChar_some h).1]

theorem streamController.getCorexIdFromParam_of_no_dot (s : String) (hs : '.' ∉ s.data) :
    streamController.getCorexIdFromParam s = s := by
  simp [streamController.getCorexIdFromParam, JS.indexOfChar_eq_none hs]

theorem streamController.getCorexIdFromParam_append (s t : String) (rest : List Char)
    (hs : '.' ∉ s.data) (ht : t.data = [] ∨ t.data = '.' :: rest) :
    streamController.getCorexIdFromParam (s ++ t) = s := by
  apply String.ext
  rw [streamController.getCorexIdFromParam_data, String.data_append]
  rcases ht with ht | ht
  · rw [ht, List.append_nil, JS.takeWhile_ne_of_not_mem hs]
  · rw [ht, List.takeWhile_append_of_pos (by
      intro a ha
      have : a ≠ '.' := fun h => hs (h ▸ ha)
      simpa using this)]
    simp

/-- C4. Suffix stripping: for an identifier `s` without a dot and any text `e`,
`getCorexIdFromParam` maps both `s + "." + e` and `s` to `s`; for every input
`id` the result has no dot and is the part of `id` before its first dot, the
rest of `id` being empty or starting with a dot. -/
theorem getCorexIdFromParam_strips_suffix (s e id : String) (hs : '.' ∉ s.data) :
    streamController.getCorexIdFromParam (s ++ "." ++ e) = s ∧
    streamController.getCorexIdFromParam s = s ∧
    '.' ∉ (streamController.getCorexIdFromParam id).data ∧
    (streamController.getCorexIdFromParam id).data = id.data.takeWhile (· != '.') ∧
    ∃ rest, id.data = (streamController.getCorexIdFromParam id).data ++ rest ∧
      (rest = [] ∨ rest.head? = some '.') := by
  refine ⟨?_, streamController.getCorexIdFromParam_of_no_dot s hs, ?_,
    streamController.getCorexIdFromParam_data id, ?_⟩
  · rw [String.append_assoc]
    exact streamController.getCorexIdFromParam_append s ("." ++ e) e.data hs (Or.inr (by simp))
  · rw [streamController.getCorexIdFromParam_data]
    exact JS.not_mem_takeWhile_ne '.' id.data
  · refine ⟨id.data.dropWhile (· != '.'), ?_, ?_⟩
    · rw [streamController.getCorexIdFromParam_data, List.takeWhile_append_dropWhile]
    · cases h : id.data.dropWhile (· != '.') with
      | nil => exact Or.inl rfl
      | cons x xs =>
        right
        have := List.head_dropWhile_not (· != '.') id.data (by simp [h])
        simp [h] at this
        simp [this]

/-- C4, at `cx_abc123def456` with the suffix `mp4` and the input `a.b.c`. -/
theorem getCorexIdFromParam_strips_suffix_witness :
    streamController.getCorexIdFromParam ("cx_abc123def456" ++ "." ++ "mp4") = "cx_abc123def456" ∧
    streamController.getCorexIdFromParam "cx_abc123def456" = "cx_abc123def456" ∧
    '.' ∉ (streamController.getCorexIdFromParam "a.b.c").data ∧
    (streamController.getCorexIdFromParam "a.b.c").data = "a.b.c".data.takeWhile (· != '.') ∧
    ∃ rest, "a.b.c".data = (streamController.getCorexIdFromParam "a.b.c").data ++ rest ∧
      (rest = [] ∨ rest.head? = some '.') :=
  getCorexIdFromParam_strips_suffix "cx_abc123def456" "mp4" "a.b.c" (by decide)

/-! ## The classifier -/

theorem proxyJsonController.isValidUrl_str (unicodeLower : String → String) (s : String) :
    proxyJsonController.isValidUrl unicodeLower (.str s) =
      if proxyJsonController.httpUrlTest s.data then .error (.referenceError "lowerValue")
      else .ok false := by
  simp only [proxyJsonController.isValidUrl, proxyJsonController.lowerValueBinding]
  cases h : proxyJsonController.httpUrlTest s.data <;> simp

/-- C2. On the three URLs of the spec, `isValidUrl` returns no boolean: each
passes the test of line 59 and the read of the undeclared `lowerValue` on line
80 throws a `ReferenceError`. -/
theorem isValidUrl_throws_on_spec_examples (unicodeLower : String → String) :
    proxyJsonController.isValidUrl unicodeLower (.str "https://cdn.example.com/video/abc123") =
      .error (.referenceError "lowerValue") ∧
    proxyJsonController.isValidUrl unicodeLower (.str "https://example.com/clip.MP4?sig=xyz") =
      .error (.referenceError "lowerValue") ∧
    proxyJsonController.isValidUrl unicodeLower (.str "https://example.com/page.html") =
      .error (.referenceError "lowerValue") :=
  ⟨rfl, rfl, rfl⟩

/-- C3. On the input of the spec, `{"a": "https://cdn.example.com/clip.mp4",
"b": ["https://site.com/index.html", 42]}`, `wrapJson` returns no value: it
throws the `ReferenceError` of `isValidUrl` at the member `a`. -/
theorem wrapJson_throws_on_spec_example (unicodeLower : String → String)
    (uuidv4 : Nat → String) (h : proxyJsonController.Heap) :
    proxyJsonController.wrapJson unicodeLower uuidv4 "http://localhost:23480/corex"
      (.obj [("a", .str "https://cdn.example.com/clip.mp4"),
             ("b", .arr [.str "https://site.com/index.html", .number 42])]) h =
      .error (.referenceError "lowerValue") :=
  rfl

/-- C5. The name `constructor` was never stored, yet `getUrl` returns the
member of `Object.prototype` that `memoryStore` inherits instead of `null`,
and `streamMedia` answers 500 instead of 404. For `cx_doesnotexist`, which
`Object.prototype` does not define, `getUrl` returns `null` and `streamMedia`
answers 404. -/
theorem getUrl_inherited_key (engine : String → Option URL.Record)
    (fetch : String → Option String → Except JSError streamController.Upstream) :
    kvStore.getUrl kvStore.State.empty "constructor" = .inherited "constructor" ∧
    kvStore.getUrl kvStore.State.empty "constructor" ≠ .null ∧
    (streamController.streamMedia engine fetch kvStore.State.empty
      ⟨"constructor", [], none⟩).status = 500 ∧
    kvStore.getUrl kvStore.State.empty "cx_doesnotexist" = .null ∧
    (streamController.streamMedia engine fetch kvStore.State.empty
      ⟨"cx_doesnotexist", [], none⟩).status = 404 :=
  ⟨by decide, by decide, rfl, by decide, rfl⟩

/-- C9. `https://cdn.example.com/video/abc123` and
`https://example.com/clip.MP4?sig=xyz` pass `validateUrl`, and on each the
extension of the registration controller differs from the extension of the
classifier. -/
theorem register_extension_differs (engine : String → Option URL.Record)
    (unicodeLower : String → String) :
    validateUrl engine (some (.str "https://cdn.example.com/video/abc123")) = .next ∧
    registerController.getFileExtension "https://cdn.example.com/video/abc123" =
      ".com/video/abc123" ∧
    proxyJsonController.getFileExtension unicodeLower "https://cdn.example.com/video/abc123" =
      ".mp4" ∧
    validateUrl engine (some (.str "https://example.com/clip.MP4?sig=xyz")) = .next ∧
    registerController.getFileExtension "https://example.com/clip.MP4?sig=xyz" = ".MP4" ∧
    proxyJsonController.getFileExtension unicodeLower "https://example.com/clip.MP4?sig=xyz" =
      ".mp4" :=
  ⟨rfl, rfl, rfl, rfl, rfl, rfl⟩

/-! ## The shape of a detected extension -/

theorem JS.isAsciiAlnum_lt {c : Char} (h : JS.isAsciiAlnum c = true) : c.toNat < 128 := by
  simp only [JS.isAsciiAlnum, Bool.or_eq_true, Bool.and_eq_true, decide_eq_true_eq] at h
  have h1 : c.toNat ≤ 122 ∨ c.toNat ≤ 90 ∨ c.toNat ≤ 57 := by
    rcases h with (⟨_, h⟩ | ⟨_, h⟩) | ⟨_, h⟩
    · exact Or.inl h
    · exact Or.inr (Or.inl h)
    · exact Or.inr (Or.inr h)
  omega

theorem JS.length_of_alnum (l : List Char) (h : l.all JS.isAsciiAlnum = true) :
    JS.length l = l.length := by
  induction l with
  | nil => rfl
  | cons c cs ih =>
    simp only [List.all_cons, Bool.and_eq_true] at h
    have hc : c.toNat < 65536 := by
      have := JS.isAsciiAlnum_lt h.1
      omega
    have := ih h.2
    simp only [JS.length] at this ⊢
    simp [hc, this]
    omega

theorem proxyJsonController.isShortExtension_of_dotAlnumTest (ext : List Char)
    (h3 : 3 ≤ JS.length ext) (h6 : JS.length ext ≤ 6)
    (ht : proxyJsonController.dotAlnumTest ext = true) :
    proxyJsonController.isShortExtension ⟨ext⟩ = true := by
  unfold proxyJsonController.dotAlnumTest at ht
  split at ht
  · rename_i c rest
    have hl : JS.length ('.' :: c :: rest) = (c :: rest).length + 1 := by
      have := JS.length_of_alnum (c :: rest) ht
      simp only [JS.length, List.map_cons, List.sum_cons] at this ⊢
      have hd : ('.' : Char).toNat < 65536 := by decide
      simp only [hd, if_true]
      omega
    rw [hl] at h3 h6
    simp only [proxyJsonController.isShortExtension, Bool.and_eq_true, decide_eq_true_eq]
    exact ⟨⟨by omega, by omega⟩, ht⟩
  · exact absurd ht (by simp)

theorem proxyJsonController.getFileExtension_empty_or_short (unicodeLower : String → String)
    (url : String) :
    proxyJsonController.getFileExtension unicodeLower url = "" ∨
    proxyJsonController.isShortExtension
      (proxyJsonController.getFileExtension unicodeLower url) = true := by
  have hconst : ∀ e ∈ proxyJsonController.commonExtensions,
      proxyJsonController.isShortExtension e = true := by decide
  unfold proxyJsonController.getFileExtension
  simp only
  split
  · rename_i ext hext
    split at hext
    · split at hext
      · rename_i h
        cases hext
        exact Or.inr
          (proxyJsonController.isShortExtension_of_dotAlnumTest _ h.1 h.2.1 h.2.2)
      · cases hext
    · cases hext
  · split
    · rename_i e he
      exact Or.inr (hconst e (List.mem_of_find?_eq_some he))
    · repeat' split
      all_goals first | exact Or.inl rfl | exact Or.inr (by decide)

theorem proxyJsonController.isShortExtension_facts {ext : String}
    (h : proxyJsonController.isShortExtension ext = true) :
    '/' ∉ ext.data ∧ '?' ∉ ext.data ∧ '#' ∉ ext.data ∧ ext.data.count '.' = 1 ∧ ext ≠ "" := by
  unfold proxyJsonController.isShortExtension at h
  split at h
  · rename_i rest hdata
    simp only [Bool.and_eq_true, decide_eq_true_eq] at h
    have hno : ∀ d : Char, JS.isAsciiAlnum d = false → d ∉ rest := fun d hd hm => by
      have := List.all_eq_true.mp h.2 d hm
      rw [hd] at this
      cases this
    rw [hdata]
    refine ⟨?_, ?_, ?_, ?_, ?_⟩
    · simp only [List.mem_cons, not_or]
      exact ⟨by decide, hno '/' (by decide)⟩
    · simp only [List.mem_cons, not_or]
      exact ⟨by decide, hno '?' (by decide)⟩
    · simp only [List.mem_cons, not_or]
      exact ⟨by decide, hno '#' (by decide)⟩
    · rw [List.count_cons_self, List.count_eq_zero_of_not_mem (hno '.' (by decide))]
    · intro he
      rw [he] at hdata
      cases hdata
  · cases h

theorem proxyJsonController.generateCorexId_data (uuid : String) :
    (proxyJsonController.generateCorexId uuid).data =
      'c' :: 'x' :: '_' :: uuid.data.filter (fun c => c != '-') := rfl

theorem JS.uuid_chars {uuid : String} (h : JS.isUuidText uuid = true) (d : Char)
    (hd : (('0' ≤ d && d ≤ '9') || ('a' ≤ d && d ≤ 'f') || d == '-') = false) :
    d ∉ uuid.data.filter (fun c => c != '-') := by
  intro hm
  have hmem := (List.mem_filter.mp hm).1
  have := List.all_eq_true.mp h d hmem
  rw [hd] at this
  cases this

theorem proxyJsonController.generateCorexId_no_dot_no_slash {uuid : String}
    (h : JS.isUuidText uuid = true) :
    '.' ∉ (proxyJsonController.generateCorexId uuid).data ∧
    '/' ∉ (proxyJsonController.generateCorexId uuid).data := by
  rw [proxyJsonController.generateCorexId_data]
  simp only [List.mem_cons, not_or]
  exact ⟨⟨by decide, by decide, by decide, JS.uuid_chars h '.' (by decide)⟩,
    ⟨by decide, by decide, by decide, JS.uuid_chars h '/' (by decide)⟩⟩

/-- C10, as amended. For every `url` the extension detected by the classifier
is empty or a dot followed by two to five ASCII letters or digits; it has no
`/`, `?` or `#` and at most one dot, exactly one when it is not empty. For an
identifier made from a UUID, the text `<identifier><extension>` of the masked
URL has no `/` (one path segment after the base) and exactly the dots of the
extension. -/
theorem getFileExtension_shape (unicodeLower : String → String) (url uuid : String)
    (huuid : JS.isUuidText uuid = true) :
    (proxyJsonController.getFileExtension unicodeLower url = "" ∨
      proxyJsonController.isShortExtension
        (proxyJsonController.getFileExtension unicodeLower url) = true) ∧
    '/' ∉ (proxyJsonController.getFileExtension unicodeLower url).data ∧
    '?' ∉ (proxyJsonController.getFileExtension unicodeLower url).data ∧
    '#' ∉ (proxyJsonController.getFileExtension unicodeLower url).data ∧
    (proxyJsonController.getFileExtension unicodeLower url).data.count '.' ≤ 1 ∧
    ((proxyJsonController.getFileExtension unicodeLower url).data.count '.' = 1 ↔
      proxyJsonController.getFileExtension unicodeLower url ≠ "") ∧
    '/' ∉ (proxyJsonController.generateCorexId uuid ++
      proxyJsonController.getFileExtension unicodeLower url).data ∧
    (proxyJsonController.generateCorexId uuid ++
      proxyJsonController.getFileExtension unicodeLower url).data.count '.' =
      (proxyJsonController.getFileExtension unicodeLower url).data.count '.' := by
  have hid := proxyJsonController.generateCorexId_no_dot_no_slash huuid
  have key : '/' ∉ (proxyJsonController.getFileExtension unicodeLower url).data ∧
      '?' ∉ (proxyJsonController.getFileExtension unicodeLower url).data ∧
      '#' ∉ (proxyJsonController.getFileExtension unicodeLower url).data ∧
      (proxyJsonController.getFileExtension unicodeLower url).data.count '.' ≤ 1 ∧
      ((proxyJsonController.getFileExtension unicodeLower url).data.count '.' = 1 ↔
        proxyJsonController.getFileExtension unicodeLower url ≠ "") := by
    rcases proxyJsonController.getFileExtension_empty_or_short unicodeLower url with h | h
    · rw [h]
      decide
    · have f := proxyJsonController.isShortExtension_facts h
      exact ⟨f.1, f.2.1, f.2.2.1, by rw [f.2.2.2.1], by simp [f.2.2.2.1, f.2.2.2.2]⟩
  refine ⟨proxyJsonController.getFileExtension_empty_or_short unicodeLower url,
    key.1, key.2.1, key.2.2.1, key.2.2.2.1, key.2.2.2.2, ?_, ?_⟩
  · rw [String.data_append, List.mem_append, not_or]
    exact ⟨hid.2, key.1⟩
  · rw [String.data_append, List.count_append, List.count_eq_zero_of_not_mem hid.1,
      Nat.zero_add]

/-- C10, at `https://example.com/clip.MP4?sig=xyz` and a version-4 UUID. -/
theorem getFileExtension_shape_witness :
    (proxyJsonController.getFileExtension id "https://example.com/clip.MP4?sig=xyz" = "" ∨
      proxyJsonController.isShortExtension
        (proxyJsonController.getFileExtension id "https://example.com/clip.MP4?sig=xyz") =
          true) ∧
    '/' ∉ (proxyJsonController.getFileExtension id "https://example.com/clip.MP4?sig=xyz").data ∧
    '?' ∉ (proxyJsonController.getFileExtension id "https://example.com/clip.MP4?sig=xyz").data ∧
    '#' ∉ (proxyJsonController.getFileExtension id "https://example.com/clip.MP4?sig=xyz").data ∧
    (proxyJsonController.getFileExtension id
      "https://example.com/clip.MP4?sig=xyz").data.count '.' ≤ 1 ∧
    ((proxyJsonController.getFileExtension id
        "https://example.com/clip.MP4?sig=xyz").data.count '.' = 1 ↔
      proxyJsonController.getFileExtension id "https://example.com/clip.MP4?sig=xyz" ≠ "") ∧
    '/' ∉ (proxyJsonController.generateCorexId "9b1deb4d-3b7d-4bad-9bdd-2b0d7b3dcb6d" ++
      proxyJsonController.getFileExtension id "https://example.com/clip.MP4?sig=xyz").data ∧
    (proxyJsonController.generateCorexId "9b1deb4d-3b7d-4bad-9bdd-2b0d7b3dcb6d" ++
      proxyJsonController.getFileExtension id
        "https://example.com/clip.MP4?sig=xyz").data.count '.' =
      (proxyJsonController.getFileExtension id
        "https://example.com/clip.MP4?sig=xyz").data.count '.' :=
  getFileExtension_shape id "https://example.com/clip.MP4?sig=xyz"
    "9b1deb4d-3b7d-4bad-9bdd-2b0d7b3dcb6d" (by decide)

/-- C10, counterexample. For `http://cdn` the detected extension is empty, so
the masked URL built on lines 117-120 ends with the identifier and has no dot
after it, not exactly one. -/
theorem getFileExtension_empty_no_dot :
    proxyJsonController.getFileExtension id "http://cdn" = "" ∧
    (proxyJsonController.maskString id (fun _ => "9b1deb4d-3b7d-4bad-9bdd-2b0d7b3dcb6d")
      "http://localhost:23480/corex" "http://cdn" ⟨kvStore.State.empty, 0⟩).1 =
      .str "http://localhost:23480/corex/cx_9b1deb4d3b7d4bad9bdd2b0d7b3dcb6d" ∧
    ¬ ((proxyJsonController.getFileExtension id "http://cdn").data.count '.' = 1) :=
  ⟨by decide, rfl, by decide⟩

/-! ## The relay -/

theorem streamController.get_lower (up : streamController.Upstream) (a b : String)
    (h : (⟨a.data.map Char.toLower⟩ : String) = ⟨b.data.map Char.toLower⟩) :
    up.get a = up.get b := by
  simp only [streamController.Upstream.get, h]

theorem streamController.setHeader_fresh (hs : List (String × String)) (names : List String)
    (name value : String) (hin : ∀ p ∈ hs, p.1 ∈ names)
    (hfresh : names.all (fun n =>
      !((⟨n.data.map Char.toLower⟩ : String) == ⟨name.data.map Char.toLower⟩)) = true) :
    streamController.setHeader hs name value = hs ++ [(name, value)] ∧
    ∀ p ∈ streamController.setHeader hs name value, p.1 ∈ names ++ [name] := by
  have hany : hs.any (fun h =>
      (⟨h.1.data.map Char.toLower⟩ : String) == ⟨name.data.map Char.toLower⟩) = false := by
    rw [List.any_eq_false]
    intro p hp
    have := List.all_eq_true.mp hfresh p.1 (hin p hp)
    simpa using this
  have heq : streamController.setHeader hs name value = hs ++ [(name, value)] := by
    simp only [streamController.setHeader, hany, Bool.false_eq_true, if_false]
  refine ⟨heq, ?_⟩
  rw [heq]
  intro p hp
  rcases List.mem_append.mp hp with h | h
  · exact List.mem_append_left _ (hin p h)
  · simp only [List.mem_singleton] at h
    subst h
    simp

theorem streamController.setHeaderIfTruthy_fresh (hs : List (String × String))
    (names : List String) (name : String) (value : Option String)
    (hin : ∀ p ∈ hs, p.1 ∈ names)
    (hfresh : names.all (fun n =>
      !((⟨n.data.map Char.toLower⟩ : String) == ⟨name.data.map Char.toLower⟩)) = true) :
    streamController.setHeaderIfTruthy hs name value =
      hs ++ ((value.filter (· != "")).map (fun v => (name, v))).toList ∧
    ∀ p ∈ streamController.setHeaderIfTruthy hs name value, p.1 ∈ names ++ [name] := by
  have hkeep : ∀ p ∈ hs, p.1 ∈ names ++ [name] := fun p hp =>
    List.mem_append_left _ (hin p hp)
  cases value with
  | none => exact ⟨by simp [streamController.setHeaderIfTruthy], hkeep⟩
  | some v =>
    by_cases hv : v = ""
    · exact ⟨by simp [streamController.setHeaderIfTruthy, Option.filter, hv],
        by simpa [streamController.setHeaderIfTruthy, hv] using hkeep⟩
    · have := streamController.setHeader_fresh hs names name v hin hfresh
      exact ⟨by simp [streamController.setHeaderIfTruthy, Option.filter, hv, this.1],
        by simpa [streamController.setHeaderIfTruthy, hv] using this.2⟩

theorem streamController.copiedHeader_eq (up : streamController.Upstream) (name : String) :
    streamController.copiedHeader up name = ((up.get name).filter (· != "")).map (fun v => (name, v)) := by
  unfold streamController.copiedHeader
  cases up.get name with
  | none => rfl
  | some v =>
    by_cases hv : v = ""
    · simp [Option.filter, hv]
    · simp [Option.filter, hv]

theorem streamController.relay_headers_ok (up : streamController.Upstream)
    (hok : up.ok = true) :
    (streamController.relay up).headers =
      streamController.copiedHeaderNames.filterMap (streamController.copiedHeader up) ++
        streamController.fixedHeaders := by
  have e1 : up.get "Content-Type" = up.get "content-type" :=
    streamController.get_lower up _ _ (by decide)
  have e2 : up.get "Content-Length" = up.get "content-length" :=
    streamController.get_lower up _ _ (by decide)
  have e3 : up.get "Accept-Ranges" = up.get "accept-ranges" :=
    streamController.get_lower up _ _ (by decide)
  have e4 : up.get "Content-Disposition" = up.get "content-disposition" :=
    streamController.get_lower up _ _ (by decide)
  have e5 : up.get "Content-Range" = up.get "content-range" :=
    streamController.get_lower up _ _ (by decide)
  have s1 := streamController.setHeaderIfTruthy_fresh [] [] "Content-Type"
    (up.get "content-type") (by simp) (by decide)
  have s2 := streamController.setHeaderIfTruthy_fresh _ _ "Content-Length"
    (up.get "content-length") s1.2 (by decide)
  have s3 := streamController.setHeaderIfTruthy_fresh _ _ "Accept-Ranges"
    (up.get "accept-ranges") s2.2 (by decide)
  have s4 := streamController.setHeaderIfTruthy_fresh _ _ "Content-Disposition"
    (up.get "content-disposition") s3.2 (by decide)
  have s5 := streamController.setHeaderIfTruthy_fresh _ _ "Content-Range"
    (up.get "content-range") s4.2 (by decide)
  have f1 := streamController.setHeader_fresh _ _ "X-Content-Type-Options" "nosniff"
    s5.2 (by decide)
  have f2 := streamController.setHeader_fresh _ _ "Cache-Control"
    "public, max-age=31536000, immutable" f1.2 (by decide)
  have f3 := streamController.setHeader_fresh _ _ "X-Frame-Options" "SAMEORIGIN"
    f2.2 (by decide)
  simp only [streamController.relay, hok, Bool.not_true, Bool.false_eq_true, if_false]
  rw [f3.1, f2.1, f1.1, s5.1, s4.1, s3.1, s2.1, s1.1]
  simp only [streamController.copiedHeaderNames, List.filterMap_cons, List.filterMap_nil,
    streamController.copiedHeader_eq, e1, e2, e3, e4, e5, streamController.fixedHeaders]
  generalize (up.get "content-type").filter (· != "") = t1
  generalize (up.get "content-length").filter (· != "") = t2
  generalize (up.get "accept-ranges").filter (· != "") = t3
  generalize (up.get "content-disposition").filter (· != "") = t4
  generalize (up.get "content-range").filter (· != "") = t5
  cases t1 <;> cases t2 <;> cases t3 <;> cases t4 <;> cases t5 <;> rfl

/-- The status of the relayed response, as lines 57-88 set it. -/
theorem streamController.relay_status_eq (up : streamController.Upstream) :
    (streamController.relay up).status =
      (if up.ok = false then 502
       else if (up.get "content-range").any (· ≠ "") then 206 else 200) := by
  cases hok : up.ok with
  | false => simp [streamController.relay, hok]
  | true => simp [streamController.relay, hok]

/-- C6, as amended. The relay answers 502 exactly when the upstream response
is not successful and not a partial-content response, which is the same as not
successful (a 206 is successful). Otherwise the downstream status is 206 if the
upstream response carries a non-empty `Content-Range` header; and if it
carries none and its status is not 206, the downstream status is 200, the
default, whatever the upstream status. Nothing is stated for an upstream 206
without `Content-Range`. -/
theorem relay_status (up : streamController.Upstream) :
    ((streamController.relay up).status = 502 ↔ up.ok = false ∧ up.status ≠ 206) ∧
    ((up.ok = false ∧ up.status ≠ 206) ↔ up.ok = false) ∧
    (up.ok = true → (up.get "content-range").any (· ≠ "") = true →
      (streamController.relay up).status = 206) ∧
    (up.ok = true → (up.get "content-range").any (· ≠ "") = false → up.status ≠ 206 →
      (streamController.relay up).status = 200) := by
  have h206 : up.ok = false → up.status ≠ 206 := by
    intro h h2
    simp [streamController.Upstream.ok, h2] at h
  have hiff : (up.ok = false ∧ up.status ≠ 206) ↔ up.ok = false :=
    ⟨fun h => h.1, fun h => ⟨h, h206 h⟩⟩
  have heq := streamController.relay_status_eq up
  refine ⟨?_, hiff, ?_, ?_⟩
  · rw [hiff, heq]
    cases hok : up.ok with
    | false => simp
    | true =>
      simp only [Bool.true_eq_false, if_false, iff_false]
      split <;> decide
  · intro hok hcr
    rw [heq, hok, hcr]
    simp
  · intro hok hcr _
    rw [heq, hok, hcr]
    simp

/-- C6, at an upstream 206 with `Content-Range`, an upstream 204 and an
upstream 404. -/
theorem relay_status_witness :
    (streamController.relay ⟨206, [("content-range", "bytes 0-99/200")]⟩).status = 206 ∧
    (streamController.relay ⟨204, []⟩).status = 200 ∧
    (streamController.relay ⟨404, []⟩).status = 502 :=
  ⟨(relay_status ⟨206, [("content-range", "bytes 0-99/200")]⟩).2.2.1 (by decide) (by decide),
   (relay_status ⟨204, []⟩).2.2.2 (by decide) (by decide) (by decide),
   (relay_status ⟨404, []⟩).1.mpr (by decide)⟩

/-- C6, counterexample. An upstream 204, which is successful, carries no
`Content-Range` and is no partial-content response, is relayed with status
200, not with the upstream status 204. -/
theorem relay_status_not_upstream :
    streamController.Upstream.ok ⟨204, []⟩ = true ∧
    streamController.Upstream.get ⟨204, []⟩ "content-range" = none ∧
    (streamController.relay ⟨204, []⟩).status = 200 ∧
    ¬ ((streamController.relay ⟨204, []⟩).status = 204) := by
  decide

/-- C7, as amended. On a successful relay the headers that `streamMedia` sets
are, in this order, each of `Content-Type`, `Content-Length`, `Accept-Ranges`,
`Content-Disposition`, `Content-Range` for which `headers.get` of the upstream
response is a non-empty text, with that text as value, and then the three
fixed headers; a pair is set exactly when it is one of those. -/
theorem relay_headers (up : streamController.Upstream) (hok : up.ok = true) :
    (streamController.relay up).headers =
      streamController.copiedHeaderNames.filterMap (streamController.copiedHeader up) ++
        streamController.fixedHeaders ∧
    ∀ name value, (name, value) ∈ (streamController.relay up).headers ↔
      (name ∈ streamController.copiedHeaderNames ∧ up.get name = some value ∧ value ≠ "") ∨
      (name, value) ∈ streamController.fixedHeaders := by
  refine ⟨streamController.relay_headers_ok up hok, ?_⟩
  intro name value
  rw [streamController.relay_headers_ok up hok, List.mem_append, List.mem_filterMap]
  constructor
  · rintro (⟨n, hn, hc⟩ | h)
    · left
      unfold streamController.copiedHeader at hc
      split at hc
      · rename_i v hv
        split at hc
        · rename_i hne
          simp only [Option.some.injEq, Prod.mk.injEq] at hc
          obtain ⟨rfl, rfl⟩ := hc
          exact ⟨hn, hv, hne⟩
        · cases hc
      · cases hc
    · exact Or.inr h
  · rintro (⟨hn, hg, hne⟩ | h)
    · left
      exact ⟨name, hn, by simp [streamController.copiedHeader, hg, hne]⟩
    · exact Or.inr h

/-- C7, at an upstream 206 with a content type, a range and a cookie. -/
theorem relay_headers_witness :
    (streamController.relay
      ⟨206, [("content-type", "video/mp4"), ("set-cookie", "a=b"),
             ("content-range", "bytes 0-99/200")]⟩).headers =
      streamController.copiedHeaderNames.filterMap (streamController.copiedHeader
        ⟨206, [("content-type", "video/mp4"), ("set-cookie", "a=b"),
               ("content-range", "bytes 0-99/200")]⟩) ++
        streamController.fixedHeaders ∧
    ∀ name value, (name, value) ∈ (streamController.relay
      ⟨206, [("content-type", "video/mp4"), ("set-cookie", "a=b"),
             ("content-range", "bytes 0-99/200")]⟩).headers ↔
      (name ∈ streamController.copiedHeaderNames ∧
        streamController.Upstream.get
          ⟨206, [("content-type", "video/mp4"), ("set-cookie", "a=b"),
                 ("content-range", "bytes 0-99/200")]⟩ name = some value ∧ value ≠ "") ∨
      (name, value) ∈ streamController.fixedHeaders :=
  relay_headers ⟨206, [("content-type", "video/mp4"), ("set-cookie", "a=b"),
    ("content-range", "bytes 0-99/200")]⟩ (by decide)

/-- C7, counterexample. The upstream response carries `Content-Type` with an
empty value (`headers.get` returns the empty text, not `null`), and the relay
sets no `Content-Type` header. -/
theorem relay_drops_empty_header :
    streamController.Upstream.ok ⟨200, [("Content-Type", "")]⟩ = true ∧
    streamController.Upstream.get ⟨200, [("Content-Type", "")]⟩ "Content-Type" = some "" ∧
    (streamController.relay ⟨200, [("Content-Type", "")]⟩).headers =
      streamController.fixedHeaders ∧
    ¬ (("Content-Type", "") ∈ (streamController.relay ⟨200, [("Content-Type", "")]⟩).headers) := by
  decide

/-! ## Registration followed by resolution -/

theorem kvStore.getUrl_storeUrl_same (st : kvStore.State) (corexId url : String)
    (hid : corexId ≠ "") (hproto : corexId ≠ "__proto__") (hurl : url ≠ "") :
    kvStore.getUrl (kvStore.storeUrl st corexId url) corexId = .str url := by
  simp [kvStore.getUrl, kvStore.storeUrl, kvStore.State.assign, kvStore.State.read,
    JS.Value.truthy, hid, hproto, hurl]

theorem kvStore.getUrl_storeUrl_other (st : kvStore.State) (corexId url other : String)
    (h : other ≠ corexId) :
    kvStore.getUrl (kvStore.storeUrl st corexId url) other = kvStore.getUrl st other := by
  unfold kvStore.storeUrl kvStore.State.assign
  split
  · rfl
  · split
    · rfl
    · simp [kvStore.getUrl, kvStore.State.read, h]

theorem kvStore.getUrl_empty_of_not_inherited (corexId : String)
    (h : corexId ∉ JS.objectPrototypeKeys) :
    kvStore.getUrl kvStore.State.empty corexId = .null := by
  simp [kvStore.getUrl, kvStore.State.read, kvStore.State.empty, h, JS.Value.truthy]

theorem URL.parse_bare_origin (engine : String → Option URL.Record) :
    (URL.parse engine "https://example.com").map URL.Record.href =
      some "https://example.com/" :=
  rfl

theorem registerController.generateCorexId_facts {uuid : String}
    (h : JS.isUuidText uuid = true) :
    '.' ∉ (registerController.generateCorexId uuid).data ∧
    registerController.generateCorexId uuid ≠ "" ∧
    registerController.generateCorexId uuid ≠ "__proto__" := by
  have hd : (registerController.generateCorexId uuid).data =
      'c' :: 'x' :: '_' :: uuid.data.filter (fun c => c != '-') := rfl
  refine ⟨?_, ?_, ?_⟩
  · rw [hd]
    simp only [List.mem_cons, not_or]
    exact ⟨by decide, by decide, by decide, JS.uuid_chars h '.' (by decide)⟩
  · intro he
    rw [he] at hd
    cases hd
  · intro he
    rw [he] at hd
    have := congrArg List.head? hd
    simp at this

theorem JS.drop_lastIndexOfChar {c : Char} {l : List Char} {i : Nat}
    (h : JS.lastIndexOfChar c l = some i) : ∃ rest, l.drop i = c :: rest := by
  induction l generalizing i with
  | nil => simp [JS.lastIndexOfChar] at h
  | cons x xs ih =>
    unfold JS.lastIndexOfChar at h
    split at h
    · rename_i j hj
      cases h
      obtain ⟨rest, hr⟩ := ih hj
      exact ⟨rest, by simpa using hr⟩
    · split at h
      · rename_i hx
        cases h
        exact ⟨xs, by simp [hx]⟩
      · cases h

theorem registerController.getFileExtension_empty_or_dot (url : String) :
    (registerController.getFileExtension url).data = [] ∨
    ∃ rest, (registerController.getFileExtension url).data = '.' :: rest := by
  unfold registerController.getFileExtension
  simp only
  split
  · exact Or.inl rfl
  · rename_i i hi
    exact Or.inr (JS.drop_lastIndexOfChar hi)

theorem validateUrl_next {engine : String → Option URL.Record} {url : String}
    (h : validateUrl engine (some (.str url)) = .next) :
    url ≠ "" ∧ ∃ r, URL.parse engine url = some r ∧ r.protocol ∈ ["http:", "https:"] := by
  unfold validateUrl at h
  simp only at h
  split at h
  · cases h
  · rename_i hne
    split at h
    · cases h
    · rename_i r hr
      split at h
      · rename_i hp
        exact ⟨hne, r, hr, hp⟩
      · cases h

theorem streamController.beforeFetch_of_stored (engine : String → Option URL.Record)
    (st : kvStore.State) (id url : String) (range : Option String) (r : URL.Record)
    (hurl : url ≠ "")
    (hget : kvStore.getUrl st (streamController.getCorexIdFromParam id) = .str url)
    (hparse : URL.parse engine url = some r) :
    streamController.beforeFetch engine st ⟨id, [], range⟩ =
      .fetch r.href (streamController.forwardedRange range) := by
  simp [streamController.beforeFetch, hget, JS.Value.truthy, JS.Value.toJSString, hurl,
    URL.construct, hparse]

/-- C1, as amended. For every `url` accepted by `validateUrl`, with the
in-memory store in any state and any UUID drawn, `registerUrl` answers 200
with `corexUrl = <base>/<corexId><ext>`, and afterwards `streamMedia` called
with `id = corexId`, or with `id = corexId` followed by `ext`, and an empty
query finds the mapping and calls `fetch` with the serialisation
`new URL(url).toString()` of the registered `url`. -/
theorem register_then_stream (engine : String → Option URL.Record) (st : kvStore.State)
    (uuid protocol host url : String) (range : Option String)
    (hvalid : validateUrl engine (some (.str url)) = .next)
    (huuid : JS.isUuidText uuid = true) :
    ∃ r : URL.Record, URL.parse engine url = some r ∧
      (registerController.registerUrl st uuid protocol host url).2.status = 200 ∧
      (registerController.registerUrl st uuid protocol host url).2.corexUrl =
        protocol ++ "://" ++ host ++ "/corex" ++ "/" ++
          (registerController.registerUrl st uuid protocol host url).2.corexId ++
          registerController.getFileExtension url ∧
      streamController.beforeFetch engine
          (registerController.registerUrl st uuid protocol host url).1
          ⟨(registerController.registerUrl st uuid protocol host url).2.corexId, [], range⟩ =
        .fetch r.href (streamController.forwardedRange range) ∧
      streamController.beforeFetch engine
          (registerController.registerUrl st uuid protocol host url).1
          ⟨(registerController.registerUrl st uuid protocol host url).2.corexId ++
            registerController.getFileExtension url, [], range⟩ =
        .fetch r.href (streamController.forwardedRange range) := by
  obtain ⟨hne, r, hr, _⟩ := validateUrl_next hvalid
  obtain ⟨hdot, hid, hproto⟩ := registerController.generateCorexId_facts huuid
  have hstored := kvStore.getUrl_storeUrl_same st _ url hid hproto hne
  refine ⟨r, hr, rfl, rfl, ?_, ?_⟩
  · apply streamController.beforeFetch_of_stored engine _ _ url range r hne _ hr
    show kvStore.getUrl _ (streamController.getCorexIdFromParam
      (registerController.generateCorexId uuid)) = _
    rw [streamController.getCorexIdFromParam_of_no_dot _ hdot]
    exact hstored
  · apply streamController.beforeFetch_of_stored engine _ _ url range r hne _ hr
    show kvStore.getUrl _ (streamController.getCorexIdFromParam
      (registerController.generateCorexId uuid ++ registerController.getFileExtension url)) = _
    have hstrip : streamController.getCorexIdFromParam
        (registerController.generateCorexId uuid ++ registerController.getFileExtension url) =
        registerController.generateCorexId uuid := by
      rcases registerController.getFileExtension_empty_or_dot url with he | ⟨rest, he⟩
      · exact streamController.getCorexIdFromParam_append _ _ [] hdot (Or.inl he)
      · exact streamController.getCorexIdFromParam_append _ _ rest hdot (Or.inr he)
    rw [hstrip]
    exact hstored

/-- C1, at `https://cdn.example.com/media/clip.mp4?sig=abc` with an empty
store. -/
theorem register_then_stream_witness :
    ∃ r : URL.Record,
      URL.parse (fun _ => none) "https://cdn.example.com/media/clip.mp4?sig=abc" = some r ∧
      (registerController.registerUrl kvStore.State.empty
        "9b1deb4d-3b7d-4bad-9bdd-2b0d7b3dcb6d" "http" "localhost:23480"
        "https://cdn.example.com/media/clip.mp4?sig=abc").2.status = 200 ∧
      (registerController.registerUrl kvStore.State.empty
        "9b1deb4d-3b7d-4bad-9bdd-2b0d7b3dcb6d" "http" "localhost:23480"
        "https://cdn.example.com/media/clip.mp4?sig=abc").2.corexUrl =
        "http" ++ "://" ++ "localhost:23480" ++ "/corex" ++ "/" ++
          (registerController.registerUrl kvStore.State.empty
            "9b1deb4d-3b7d-4bad-9bdd-2b0d7b3dcb6d" "http" "localhost:23480"
            "https://cdn.example.com/media/clip.mp4?sig=abc").2.corexId ++
          registerController.getFileExtension
            "https://cdn.example.com/media/clip.mp4?sig=abc" ∧
      streamController.beforeFetch (fun _ => none)
          (registerController.registerUrl kvStore.State.empty
            "9b1deb4d-3b7d-4bad-9bdd-2b0d7b3dcb6d" "http" "localhost:23480"
            "https://cdn.example.com/media/clip.mp4?sig=abc").1
          ⟨(registerController.registerUrl kvStore.State.empty
            "9b1deb4d-3b7d-4bad-9bdd-2b0d7b3dcb6d" "http" "localhost:23480"
            "https://cdn.example.com/media/clip.mp4?sig=abc").2.corexId, [], none⟩ =
        .fetch r.href (streamController.forwardedRange none) ∧
      streamController.beforeFetch (fun _ => none)
          (registerController.registerUrl kvStore.State.empty
            "9b1deb4d-3b7d-4bad-9bdd-2b0d7b3dcb6d" "http" "localhost:23480"
            "https://cdn.example.com/media/clip.mp4?sig=abc").1
          ⟨(registerController.registerUrl kvStore.State.empty
            "9b1deb4d-3b7d-4bad-9bdd-2b0d7b3dcb6d" "http" "localhost:23480"
            "https://cdn.example.com/media/clip.mp4?sig=abc").2.corexId ++
            registerController.getFileExtension
              "https://cdn.example.com/media/clip.mp4?sig=abc", [], none⟩ =
        .fetch r.href (streamController.forwardedRange none) :=
  register_then_stream (fun _ => none) kvStore.State.empty
    "9b1deb4d-3b7d-4bad-9bdd-2b0d7b3dcb6d" "http" "localhost:23480"
    "https://cdn.example.com/media/clip.mp4?sig=abc" none (by decide) (by decide)

/-- C1, counterexample. `https://example.com` is accepted by `validateUrl` and
registered with status 200; `streamMedia` on the returned identifier then calls
`fetch` with `https://example.com/`, which is not the registered text. (The
modelled parser handles this input itself, whatever the `engine` argument.) -/
theorem register_then_stream_not_verbatim :
    validateUrl (fun _ => none) (some (.str "https://example.com")) = .next ∧
    (registerController.registerUrl kvStore.State.empty
      "9b1deb4d-3b7d-4bad-9bdd-2b0d7b3dcb6d" "http" "localhost:23480"
      "https://example.com").2 =
      ⟨200, "cx_9b1deb4d3b7d4bad9bdd2b0d7b3dcb6d",
        "http://localhost:23480/corex/cx_9b1deb4d3b7d4bad9bdd2b0d7b3dcb6d.com"⟩ ∧
    streamController.beforeFetch (fun _ => none)
      (registerController.registerUrl kvStore.State.empty
        "9b1deb4d-3b7d-4bad-9bdd-2b0d7b3dcb6d" "http" "localhost:23480"
        "https://example.com").1
      ⟨"cx_9b1deb4d3b7d4bad9bdd2b0d7b3dcb6d", [], none⟩ =
      .fetch "https://example.com/" none ∧
    ¬ (streamController.beforeFetch (fun _ => none)
      (registerController.registerUrl kvStore.State.empty
        "9b1deb4d-3b7d-4bad-9bdd-2b0d7b3dcb6d" "http" "localhost:23480"
        "https://example.com").1
      ⟨"cx_9b1deb4d3b7d4bad9bdd2b0d7b3dcb6d", [], none⟩ =
      .fetch "https://example.com" none) := by
  decide

/-! ## UTF-8 and percent-encoding round trips -/

theorem URL.toNat_ofNat_of_lt {n : Nat} (h : n < 0xD800) : (Char.ofNat n).toNat = n := by
  have hv : n.isValidChar := Or.inl h
  simp [Char.ofNat, hv, Char.ofNatAux, Char.toNat, UInt32.toNat]

theorem URL.utf8EncodeChar_lt (c : Char) : ∀ b ∈ URL.utf8EncodeChar c, b < 256 := by
  have hv := c.valid
  have hv' : c.toNat < 0x110000 := by
    rcases hv with h | h
    · exact Nat.lt_trans h (by decide)
    · exact h.2
  intro b hb
  unfold URL.utf8EncodeChar at hb
  simp only at hb
  split at hb
  · simp at hb; omega
  · split at hb
    · simp at hb; omega
    · split at hb
      · simp at hb; omega
      · simp at hb; omega

theorem URL.utf8Encode_lt (s : List Char) : ∀ b ∈ URL.utf8Encode s, b < 256 := by
  intro b hb
  simp only [URL.utf8Encode, List.mem_flatMap] at hb
  obtain ⟨c, _, hc⟩ := hb
  exact URL.utf8EncodeChar_lt c b hc

theorem URL.utf8Decode_encodeChar (c : Char) (rest : List Nat) :
    URL.utf8DecodeFrom (URL.utf8EncodeChar c ++ rest) none =
      c :: URL.utf8DecodeFrom rest none := by
  have hv : c.toNat < 0xD800 ∨ (0xDFFF < c.toNat ∧ c.toNat < 0x110000) := c.valid
  have hc := Char.ofNat_toNat c
  unfold URL.utf8EncodeChar
  simp only
  generalize c.toNat = n at hv hc
  by_cases h1 : n < 0x80
  · have hl : URL.utf8Lead n = .emit (Char.ofNat n) := by
      simp [URL.utf8Lead]; omega
    simp [h1, URL.utf8DecodeFrom, hl, hc]
  · by_cases h2 : n < 0x800
    · have hl : URL.utf8Lead (0xC0 + n / 64) = .start 1 (n / 64) 0x80 0xBF := by
        have e : (0xC0 + n / 64) % 32 = n / 64 := by omega
        have a1 : ¬ (0xC0 + n / 64 ≤ 0x7F) := by omega
        have a2 : 0xC2 ≤ 0xC0 + n / 64 ∧ 0xC0 + n / 64 ≤ 0xDF := by omega
        simp only [URL.utf8Lead, a1, a2, if_false, if_true, and_self, e]
      have hb : 0x80 ≤ 0x80 + n % 64 ∧ 0x80 + n % 64 ≤ 0xBF := by omega
      have e2 : n / 64 * 64 + (0x80 + n % 64) % 64 = n := by omega
      simp only [h1, h2, if_false, if_true, List.cons_append, List.nil_append,
        URL.utf8DecodeFrom, hl, hb, and_self, e2, hc]
    · by_cases h3 : n < 0x10000
      · have hn : n < 0xD800 ∨ 0xDFFF < n := by omega
        have hl : URL.utf8Lead (0xE0 + n / 4096) =
            .start 2 (n / 4096) (if 0xE0 + n / 4096 = 0xE0 then 0xA0 else 0x80)
              (if 0xE0 + n / 4096 = 0xED then 0x9F else 0xBF) := by
          have e : (0xE0 + n / 4096) % 16 = n / 4096 := by omega
          have a1 : ¬ (0xE0 + n / 4096 ≤ 0x7F) := by omega
          have a2 : ¬ (0xC2 ≤ 0xE0 + n / 4096 ∧ 0xE0 + n / 4096 ≤ 0xDF) := by omega
          have a3 : 0xE0 ≤ 0xE0 + n / 4096 ∧ 0xE0 + n / 4096 ≤ 0xEF := by omega
          simp only [URL.utf8Lead, a1, a2, a3, if_false, if_true, and_self, e]
        have hb1 : (if 0xE0 + n / 4096 = 0xE0 then 0xA0 else 0x80) ≤ 0x80 + n / 64 % 64 ∧
            0x80 + n / 64 % 64 ≤ (if 0xE0 + n / 4096 = 0xED then 0x9F else 0xBF) := by
          constructor
          · split <;> omega
          · split <;> omega
        have hb2 : 0x80 ≤ 0x80 + n % 64 ∧ 0x80 + n % 64 ≤ 0xBF := by omega
        have e2 : (n / 4096 * 64 + (0x80 + n / 64 % 64) % 64) * 64 + (0x80 + n % 64) % 64 = n := by
          omega
        simp only [h1, h2, h3, if_false, if_true, List.cons_append, List.nil_append,
          URL.utf8DecodeFrom, hl, hb1, hb2, and_self, e2, hc, OfNat.ofNat_ne_one,
          Nat.add_one_sub_one]
      · have hl : URL.utf8Lead (0xF0 + n / 262144) =
            .start 3 (n / 262144) (if 0xF0 + n / 262144 = 0xF0 then 0x90 else 0x80)
              (if 0xF0 + n / 262144 = 0xF4 then 0x8F else 0xBF) := by
          have e : (0xF0 + n / 262144) % 8 = n / 262144 := by omega
          have a1 : ¬ (0xF0 + n / 262144 ≤ 0x7F) := by omega
          have a2 : ¬ (0xC2 ≤ 0xF0 + n / 262144 ∧ 0xF0 + n / 262144 ≤ 0xDF) := by omega
          have a3 : ¬ (0xE0 ≤ 0xF0 + n / 262144 ∧ 0xF0 + n / 262144 ≤ 0xEF) := by omega
          have a4 : 0xF0 ≤ 0xF0 + n / 262144 ∧ 0xF0 + n / 262144 ≤ 0xF4 := by omega
          simp only [URL.utf8Lead, a1, a2, a3, a4, if_false, if_true, and_self, e]
        have hb1 : (if 0xF0 + n / 262144 = 0xF0 then 0x90 else 0x80) ≤ 0x80 + n / 4096 % 64 ∧
            0x80 + n / 4096 % 64 ≤ (if 0xF0 + n / 262144 = 0xF4 then 0x8F else 0xBF) := by
          constructor
          · split <;> omega
          · split <;> omega
        have hb2 : 0x80 ≤ 0x80 + n / 64 % 64 ∧ 0x80 + n / 64 % 64 ≤ 0xBF := by omega
        have hb3 : 0x80 ≤ 0x80 + n % 64 ∧ 0x80 + n % 64 ≤ 0xBF := by omega
        have e2 : ((n / 262144 * 64 + (0x80 + n / 4096 % 64) % 64) * 64 +
            (0x80 + n / 64 % 64) % 64) * 64 + (0x80 + n % 64) % 64 = n := by
          omega
        simp only [h1, h2, h3, if_false, if_true, List.cons_append, List.nil_append,
          URL.utf8DecodeFrom, hl, hb1, hb2, hb3, and_self, e2, hc, OfNat.ofNat_ne_one,
          Nat.add_one_sub_one]

theorem URL.utf8Decode_utf8Encode (s : List Char) :
    URL.utf8Decode (URL.utf8Encode s) = s := by
  unfold URL.utf8Decode
  induction s with
  | nil => rfl
  | cons c cs ih =>
    have : URL.utf8Encode (c :: cs) = URL.utf8EncodeChar c ++ URL.utf8Encode cs := by
      simp [URL.utf8Encode]
    rw [this, URL.utf8Decode_encodeChar, ih]

theorem URL.hexValue_hexDigit {n : Nat} (h : n < 16) : URL.hexValue (URL.hexDigit n) = some n := by
  unfold URL.hexDigit URL.hexValue
  by_cases h10 : n < 10
  · have a : 0x30 ≤ 0x30 + n ∧ 0x30 + n ≤ 0x39 := by omega
    simp only [h10, if_true, a, and_self]
    congr 1
    omega
  · have a : ¬ (0x30 ≤ 0x37 + n ∧ 0x37 + n ≤ 0x39) := by omega
    have b : 0x41 ≤ 0x37 + n ∧ 0x37 + n ≤ 0x46 := by omega
    simp only [h10, if_false, a, b, and_self, if_true]
    congr 1
    omega

theorem URL.hexDigit_range {n : Nat} (h : n < 16) :
    (0x30 ≤ URL.hexDigit n ∧ URL.hexDigit n ≤ 0x39) ∨
    (0x41 ≤ URL.hexDigit n ∧ URL.hexDigit n ≤ 0x46) := by
  unfold URL.hexDigit
  split <;> omega

/-- The bytes that the urlencoded serialiser writes for one byte. -/
theorem URL.urlencodedByte_range {b : Nat} (hb : b < 256) :
    ∀ x ∈ URL.urlencodedByte b, x < 128 ∧ x ≠ 0x26 ∧ x ≠ 0x3D := by
  intro x hx
  unfold URL.urlencodedByte at hx
  split at hx
  · simp at hx; omega
  · split at hx
    · rename_i hp
      simp only [List.mem_singleton] at hx
      subst hx
      simp only [URL.urlencodedPlain, Bool.or_eq_true, Bool.and_eq_true, decide_eq_true_eq,
        beq_iff_eq] at hp
      omega
    · simp only [URL.percentEncodeByte, List.mem_cons, List.mem_singleton, List.not_mem_nil,
        or_false] at hx
      have h1 := URL.hexDigit_range (n := b / 16) (by omega)
      have h2 := URL.hexDigit_range (n := b % 16) (by omega)
      rcases hx with rfl | rfl | rfl <;> omega

theorem URL.percentDecode_urlencodedByte {b : Nat} (hb : b < 256) (rest : List Nat) :
    URL.percentDecodeFrom
      ((URL.urlencodedByte b).map (fun x => if x = 0x2B then 0x20 else x) ++ rest) 0 =
      b :: URL.percentDecodeFrom rest 0 := by
  unfold URL.urlencodedByte
  by_cases h20 : b = 0x20
  · subst h20
    simp [URL.percentDecodeFrom]
  · by_cases hp : URL.urlencodedPlain b = true
    · have hne : b ≠ 0x2B ∧ b ≠ 0x25 := by
        simp only [URL.urlencodedPlain, Bool.or_eq_true, Bool.and_eq_true, decide_eq_true_eq,
          beq_iff_eq] at hp
        omega
      simp [h20, hp, hne.1, hne.2, URL.percentDecodeFrom]
    · have h1 := URL.hexDigit_range (n := b / 16) (by omega)
      have h2 := URL.hexDigit_range (n := b % 16) (by omega)
      have e1 : URL.hexDigit (b / 16) ≠ 0x2B := by omega
      have e2 : URL.hexDigit (b % 16) ≠ 0x2B := by omega
      have v1 := URL.hexValue_hexDigit (n := b / 16) (by omega)
      have v2 := URL.hexValue_hexDigit (n := b % 16) (by omega)
      have e : b / 16 * 16 + b % 16 = b := by omega
      simp [h20, hp, URL.percentEncodeByte, e1, e2, URL.percentDecodeFrom, v1, v2, e]

theorem URL.percentDecode_urlencoded (bs : List Nat) (h : ∀ b ∈ bs, b < 256) :
    URL.percentDecode ((bs.flatMap URL.urlencodedByte).map
      (fun x => if x = 0x2B then 0x20 else x)) = bs := by
  unfold URL.percentDecode
  induction bs with
  | nil => rfl
  | cons b bs ih =>
    have hb : b < 256 := h b (List.mem_cons_self _ _)
    have ht : ∀ x ∈ bs, x < 256 := fun x hx => h x (List.mem_cons_of_mem _ hx)
    rw [List.flatMap_cons, List.map_append, URL.percentDecode_urlencodedByte hb, ih ht]

theorem URL.decodeComponent_urlencodedString (s : String) :
    URL.decodeComponent (URL.urlencodedString s) = s := by
  unfold URL.decodeComponent URL.urlencodedString
  rw [URL.percentDecode_urlencoded _ (URL.utf8Encode_lt s.data), URL.utf8Decode_utf8Encode]

theorem URL.urlencodedString_range (s : String) :
    ∀ x ∈ URL.urlencodedString s, x < 128 ∧ x ≠ 0x26 ∧ x ≠ 0x3D := by
  intro x hx
  simp only [URL.urlencodedString, List.mem_flatMap] at hx
  obtain ⟨b, hb, hx⟩ := hx
  exact URL.urlencodedByte_range (URL.utf8Encode_lt s.data b hb) x hx

/-! ## The urlencoded parser inverts the serialiser -/

theorem URL.splitBytes_of_not_mem {sep : Nat} {a : List Nat} (h : sep ∉ a) :
    URL.splitBytes sep a = [a] := by
  induction a with
  | nil => rfl
  | cons x xs ih =>
    simp only [List.mem_cons, not_or] at h
    simp [URL.splitBytes, Ne.symm h.1, ih h.2]

theorem URL.splitBytes_append {sep : Nat} {a : List Nat} (b : List Nat) (h : sep ∉ a) :
    URL.splitBytes sep (a ++ sep :: b) = a :: URL.splitBytes sep b := by
  induction a with
  | nil => simp [URL.splitBytes]
  | cons x xs ih =>
    simp only [List.mem_cons, not_or] at h
    simp [URL.splitBytes, Ne.symm h.1, ih h.2]

/-- The urlencoded form of one name-value pair. -/
theorem URL.pair_no_ampersand (name value : String) :
    0x26 ∉ URL.urlencodedString name ++ 0x3D :: URL.urlencodedString value := by
  intro h
  rcases List.mem_append.mp h with h | h
  · exact (URL.urlencodedString_range name _ h).2.1 rfl
  · rcases List.mem_cons.mp h with h | h
    · cases h
    · exact (URL.urlencodedString_range value _ h).2.1 rfl

theorem URL.splitBytes_serializeUrlencoded (p : String × String) (l : List (String × String)) :
    URL.splitBytes 0x26 (URL.serializeUrlencoded (p :: l)) =
      (p :: l).map (fun q => URL.urlencodedString q.1 ++ 0x3D :: URL.urlencodedString q.2) := by
  induction l generalizing p with
  | nil =>
    obtain ⟨name, value⟩ := p
    simp only [URL.serializeUrlencoded, List.map_cons, List.map_nil]
    exact URL.splitBytes_of_not_mem (URL.pair_no_ampersand name value)
  | cons q rest ih =>
    obtain ⟨name, value⟩ := p
    have e : URL.serializeUrlencoded ((name, value) :: q :: rest) =
        (URL.urlencodedString name ++ 0x3D :: URL.urlencodedString value) ++
          0x26 :: URL.serializeUrlencoded (q :: rest) := by
      simp [URL.serializeUrlencoded]
    rw [e, URL.splitBytes_append _ (URL.pair_no_ampersand name value), ih q]
    rfl

theorem URL.parse_pair (name value : String) :
    (if URL.urlencodedString name ++ 0x3D :: URL.urlencodedString value = [] then none
     else some
      (URL.decodeComponent ((URL.urlencodedString name ++ 0x3D ::
          URL.urlencodedString value).takeWhile (· != 0x3D)),
       URL.decodeComponent (((URL.urlencodedString name ++ 0x3D ::
          URL.urlencodedString value).dropWhile (· != 0x3D)).drop 1))) =
      some (name, value) := by
  have hne : URL.urlencodedString name ++ 0x3D :: URL.urlencodedString value ≠ [] := by simp
  have hpos : ∀ x ∈ URL.urlencodedString name, (x != 0x3D) = true := fun x hx => by
    simpa using (URL.urlencodedString_range name x hx).2.2
  rw [if_neg hne, List.takeWhile_append_of_pos hpos, List.dropWhile_append_of_pos hpos]
  simp [URL.decodeComponent_urlencodedString]

theorem URL.parseUrlencoded_serializeUrlencoded (l : List (String × String)) :
    URL.parseUrlencoded (URL.serializeUrlencoded l) = l := by
  cases l with
  | nil => rfl
  | cons p l =>
    unfold URL.parseUrlencoded
    rw [URL.splitBytes_serializeUrlencoded, List.filterMap_map]
    have : ((fun bytes : List Nat =>
        if bytes = [] then none
        else some (URL.decodeComponent (bytes.takeWhile (· != 0x3D)),
          URL.decodeComponent ((bytes.dropWhile (· != 0x3D)).drop 1))) ∘
        (fun q : String × String =>
          URL.urlencodedString q.1 ++ 0x3D :: URL.urlencodedString q.2)) = some := by
      funext q
      exact URL.parse_pair q.1 q.2
    rw [this, List.filterMap_some]

theorem URL.serializeUrlencoded_lt (l : List (String × String)) :
    ∀ x ∈ URL.serializeUrlencoded l, x < 128 := by
  induction l with
  | nil => simp [URL.serializeUrlencoded]
  | cons p rest ih =>
    obtain ⟨name, value⟩ := p
    have hp : ∀ x ∈ URL.urlencodedString name ++ 0x3D :: URL.urlencodedString value,
        x < 128 := by
      intro x hx
      rcases List.mem_append.mp hx with h | h
      · exact (URL.urlencodedString_range name x h).1
      · rcases List.mem_cons.mp h with h | h
        · subst h; decide
        · exact (URL.urlencodedString_range value x h).1
    cases rest with
    | nil => simpa [URL.serializeUrlencoded] using hp
    | cons q rest =>
      intro x hx
      have e : URL.serializeUrlencoded ((name, value) :: q :: rest) =
          (URL.urlencodedString name ++ 0x3D :: URL.urlencodedString value) ++
            0x26 :: URL.serializeUrlencoded (q :: rest) := by
        simp [URL.serializeUrlencoded]
      rw [e] at hx
      rcases List.mem_append.mp hx with h | h
      · exact hp x h
      · rcases List.mem_cons.mp h with h | h
        · subst h; decide
        · exact ih x h

theorem URL.utf8Encode_map_ofNat (bs : List Nat) (h : ∀ b ∈ bs, b < 128) :
    URL.utf8Encode (bs.map Char.ofNat) = bs := by
  induction bs with
  | nil => rfl
  | cons b bs ih =>
    have hb : b < 128 := h b (List.mem_cons_self _ _)
    have ht : ∀ x ∈ bs, x < 128 := fun x hx => h x (List.mem_cons_of_mem _ hx)
    have hn : (Char.ofNat b).toNat = b := URL.toNat_ofNat_of_lt (by omega)
    have : URL.utf8Encode (List.map Char.ofNat (b :: bs)) =
        URL.utf8EncodeChar (Char.ofNat b) ++ URL.utf8Encode (bs.map Char.ofNat) := by
      simp [URL.utf8Encode]
    rw [this, ih ht]
    simp [URL.utf8EncodeChar, hn, hb]

/-- The query parameters of a record after its query was set from a list. -/
theorem URL.searchParams_of_serialized (r : URL.Record) (l : List (String × String)) :
    URL.Record.searchParams
      { r with query :=
          if (⟨(URL.serializeUrlencoded l).map Char.ofNat⟩ : String) = "" then none
          else some ⟨(URL.serializeUrlencoded l).map Char.ofNat⟩ } = l := by
  unfold URL.Record.searchParams
  simp only
  split
  · rename_i hq
    split at hq
    · rename_i he
      have hnil : URL.serializeUrlencoded l = [] := by
        have := congrArg String.data he
        simpa using this
      have := URL.parseUrlencoded_serializeUrlencoded l
      rw [hnil] at this
      exact this
    · cases hq
  · rename_i q hq
    split at hq
    · cases hq
    · cases hq
      simp only
      rw [URL.utf8Encode_map_ofNat _ (URL.serializeUrlencoded_lt l),
        URL.parseUrlencoded_serializeUrlencoded]

/-! ## Query passthrough -/

theorem URL.append_spec (u : URL.Object) (name value : String) :
    (u.append name value).list = u.list ++ [(name, value)] ∧
    (u.append name value).record.searchParams = (u.append name value).list ∧
    (u.append name value).record =
      { u.record with query := (u.append name value).record.query } := by
  refine ⟨rfl, ?_, rfl⟩
  exact URL.searchParams_of_serialized u.record (u.list ++ [(name, value)])

theorem URL.foldl_append_spec (q : List (String × String)) (u : URL.Object)
    (hu : u.record.searchParams = u.list) :
    (q.foldl (fun u kv => u.append kv.1 kv.2) u).list = u.list ++ q ∧
    (q.foldl (fun u kv => u.append kv.1 kv.2) u).record.searchParams =
      (q.foldl (fun u kv => u.append kv.1 kv.2) u).list ∧
    (q.foldl (fun u kv => u.append kv.1 kv.2) u).record =
      { u.record with query := (q.foldl (fun u kv => u.append kv.1 kv.2) u).record.query } := by
  induction q generalizing u with
  | nil => exact ⟨by simp, hu, rfl⟩
  | cons kv rest ih =>
    obtain ⟨h1, h2, h3⟩ := URL.append_spec u kv.1 kv.2
    obtain ⟨g1, g2, g3⟩ := ih (u.append kv.1 kv.2) h2
    simp only [List.foldl_cons]
    refine ⟨by rw [g1, h1]; simp, g2, ?_⟩
    rw [g3, h3]

theorem kvStore.getUrl_str_truthy {st : kvStore.State} {corexId u : String}
    (h : kvStore.getUrl st corexId = .str u) : (JS.Value.str u).truthy = true := by
  unfold kvStore.getUrl at h
  split at h
  · cases h
  · split at h
    · rename_i _ ht
      rw [h] at ht
      exact ht
    · cases h

/-- The query parameters that the `URL` object of line 42 holds after the loop
of lines 43-45, in decoded form (`searchParams` of the record whose
serialisation is fetched): those of the stored URL followed by the entries of
`req.query`. The decoding is lossy and the query is written anew from the
decoded list, so the text of the stored parameters need not survive. -/
theorem streamController.beforeFetch_searchParams (engine : String → Option URL.Record)
    (st : kvStore.State) (req : streamController.Request) (u : String) (r : URL.Record)
    (hget : kvStore.getUrl st (streamController.getCorexIdFromParam req.id) = .str u)
    (hparse : URL.parse engine u = some r) :
    ∃ r1 : URL.Record,
      streamController.beforeFetch engine st req =
        .fetch r1.href (streamController.forwardedRange req.range) ∧
      r1.searchParams = r.searchParams ++ req.query ∧
      r1 = { r with query := r1.query } := by
  have ht := kvStore.getUrl_str_truthy hget
  obtain ⟨g1, g2, g3⟩ := URL.foldl_append_spec req.query ⟨r, r.searchParams⟩ rfl
  refine ⟨(req.query.foldl (fun (u : URL.Object) kv => u.append kv.1 kv.2)
    (⟨r, r.searchParams⟩ : URL.Object)).record, ?_, ?_, g3⟩
  · simp [streamController.beforeFetch, hget, ht, JS.Value.toJSString, URL.construct, hparse]
  · rw [g2, g1]

/-- C8. `https://a.com/?a=%ff` passes `validateUrl` and is registered. Resolved
with the passthrough query `z=1`, it is fetched as
`https://a.com/?a=%EF%BF%BD&z=1`: the value of the stored parameter `a`, the
byte FF, is replaced by the encoding of U+FFFD, and the different stored URL
`https://a.com/?a=%fe` is fetched as the same text. Resolved with an empty
query, the stored URL is fetched with its parameter as stored. -/
theorem query_passthrough_rewrites_stored_value (engine : String → Option URL.Record) :
    validateUrl engine (some (.str "https://a.com/?a=%ff")) = .next ∧
    streamController.beforeFetch engine
      (registerController.registerUrl kvStore.State.empty
        "9b1deb4d-3b7d-4bad-9bdd-2b0d7b3dcb6d" "http" "localhost:23480"
        "https://a.com/?a=%ff").1
      ⟨"cx_9b1deb4d3b7d4bad9bdd2b0d7b3dcb6d", [("z", "1")], none⟩ =
      .fetch "https://a.com/?a=%EF%BF%BD&z=1" none ∧
    streamController.beforeFetch engine
      (registerController.registerUrl kvStore.State.empty
        "9b1deb4d-3b7d-4bad-9bdd-2b0d7b3dcb6d" "http" "localhost:23480"
        "https://a.com/?a=%fe").1
      ⟨"cx_9b1deb4d3b7d4bad9bdd2b0d7b3dcb6d", [("z", "1")], none⟩ =
      .fetch "https://a.com/?a=%EF%BF%BD&z=1" none ∧
    streamController.beforeFetch engine
      (registerController.registerUrl kvStore.State.empty
        "9b1deb4d-3b7d-4bad-9bdd-2b0d7b3dcb6d" "http" "localhost:23480"
        "https://a.com/?a=%ff").1
      ⟨"cx_9b1deb4d3b7d4bad9bdd2b0d7b3dcb6d", [], none⟩ =
      .fetch "https://a.com/?a=%ff" none :=
  ⟨rfl, rfl, rfl, rfl⟩

theorem streamController.beforeFetch_passthrough_example :
    streamController.beforeFetch (fun _ => none)
      (kvStore.storeUrl kvStore.State.empty "cx_9b1deb4d3b7d4bad9bdd2b0d7b3dcb6d"
        "https://cdn.example.com/v.mp4?token=a%20b&x=1")
      ⟨"cx_9b1deb4d3b7d4bad9bdd2b0d7b3dcb6d.mp4", [("x", "2"), ("sig", "a+b/c")],
        some "bytes=0-99"⟩ =
      .fetch "https://cdn.example.com/v.mp4?token=a+b&x=1&x=2&sig=a%2Bb%2Fc"
        (some "bytes=0-99") := by
  decide

/-! ## Identifiers -/

theorem JS.base64urlCode_lt (n : Nat) : JS.base64urlCode n < 128 := by
  unfold JS.base64urlCode
  split_ifs <;> omega

theorem JS.base64urlCode_injective {m n : Nat} (hm : m < 64) (hn : n < 64)
    (h : JS.base64urlCode m = JS.base64urlCode n) : m = n := by
  unfold JS.base64urlCode at h
  split_ifs at h <;> omega

theorem JS.base64urlChar_injective {m n : Nat} (hm : m < 64) (hn : n < 64)
    (h : JS.base64urlChar m = JS.base64urlChar n) : m = n := by
  have := congrArg Char.toNat h
  unfold JS.base64urlChar at this
  rw [URL.toNat_ofNat_of_lt (Nat.lt_trans (JS.base64urlCode_lt m) (by decide)),
    URL.toNat_ofNat_of_lt (Nat.lt_trans (JS.base64urlCode_lt n) (by decide))] at this
  exact JS.base64urlCode_injective hm hn this

theorem JS.base64urlChar_urlSafe : ∀ n, n < 64 → JS.isUrlSafeChar (JS.base64urlChar n) = true := by
  decide

theorem JS.base64url_group_injective {a0 a1 a2 b0 b1 b2 : Nat}
    (ha0 : a0 < 256) (ha1 : a1 < 256) (ha2 : a2 < 256)
    (hb0 : b0 < 256) (hb1 : b1 < 256) (hb2 : b2 < 256)
    (h0 : JS.base64urlChar (a0 / 4) = JS.base64urlChar (b0 / 4))
    (h1 : JS.base64urlChar (a0 % 4 * 16 + a1 / 16) = JS.base64urlChar (b0 % 4 * 16 + b1 / 16))
    (h2 : JS.base64urlChar (a1 % 16 * 4 + a2 / 64) = JS.base64urlChar (b1 % 16 * 4 + b2 / 64))
    (h3 : JS.base64urlChar (a2 % 64) = JS.base64urlChar (b2 % 64)) :
    a0 = b0 ∧ a1 = b1 ∧ a2 = b2 := by
  have e0 := JS.base64urlChar_injective (by omega) (by omega) h0
  have e1 := JS.base64urlChar_injective (by omega) (by omega) h1
  have e2 := JS.base64urlChar_injective (by omega) (by omega) h2
  have e3 := JS.base64urlChar_injective (by omega) (by omega) h3
  omega

theorem JS.base64url_triples (n : Nat) (a : List Nat) (ha : a.length = 3 * n)
    (hlt : ∀ x ∈ a, x < 256) :
    (JS.base64url a).length = 4 * n ∧ ∀ c ∈ JS.base64url a, JS.isUrlSafeChar c = true := by
  induction n generalizing a with
  | zero =>
    have : a = [] := List.length_eq_zero.mp (by simpa using ha)
    subst this
    simp [JS.base64url]
  | succ k ih =>
    match a, ha, hlt with
    | x0 :: x1 :: x2 :: rest, ha, hlt =>
      have hr : rest.length = 3 * k := by simp at ha; omega
      have hx0 : x0 < 256 := hlt x0 (by simp)
      have hx1 : x1 < 256 := hlt x1 (by simp)
      have hx2 : x2 < 256 := hlt x2 (by simp)
      obtain ⟨hl, hs⟩ := ih rest hr (fun x hx => hlt x (by simp [hx]))
      refine ⟨by simp [JS.base64url, hl]; omega, ?_⟩
      intro c hc
      simp only [JS.base64url, List.mem_cons] at hc
      rcases hc with rfl | rfl | rfl | rfl | hc
      · exact JS.base64urlChar_urlSafe _ (by omega)
      · exact JS.base64urlChar_urlSafe _ (by omega)
      · exact JS.base64urlChar_urlSafe _ (by omega)
      · exact JS.base64urlChar_urlSafe _ (by omega)
      · exact hs c hc
    | [], ha, _ => simp at ha
    | [_], ha, _ => simp at ha; omega
    | [_, _], ha, _ => simp at ha; omega

theorem JS.base64url_injective (n : Nat) (a b : List Nat) (ha : a.length = 3 * n)
    (hb : b.length = 3 * n) (hlta : ∀ x ∈ a, x < 256) (hltb : ∀ x ∈ b, x < 256)
    (h : JS.base64url a = JS.base64url b) : a = b := by
  induction n generalizing a b with
  | zero =>
    have e1 : a = [] := List.length_eq_zero.mp (by simpa using ha)
    have e2 : b = [] := List.length_eq_zero.mp (by simpa using hb)
    rw [e1, e2]
  | succ k ih =>
    match a, ha, hlta, b, hb, hltb, h with
    | x0 :: x1 :: x2 :: ra, ha, hlta, y0 :: y1 :: y2 :: rb, hb, hltb, h =>
      have hra : ra.length = 3 * k := by simp at ha; omega
      have hrb : rb.length = 3 * k := by simp at hb; omega
      simp only [JS.base64url, List.cons.injEq] at h
      obtain ⟨h0, h1, h2, h3, hrest⟩ := h
      obtain ⟨e0, e1, e2⟩ := JS.base64url_group_injective
        (hlta x0 (by simp)) (hlta x1 (by simp)) (hlta x2 (by simp))
        (hltb y0 (by simp)) (hltb y1 (by simp)) (hltb y2 (by simp)) h0 h1 h2 h3
      have := ih ra rb hra hrb (fun x hx => hlta x (by simp [hx]))
        (fun x hx => hltb x (by simp [hx])) hrest
      rw [e0, e1, e2, this]
    | [], ha, _, _, _, _, _ => simp at ha
    | [_], ha, _, _, _, _, _ => simp at ha; omega
    | [_, _], ha, _, _, _, _, _ => simp at ha; omega
    | _ :: _ :: _ :: _, _, _, [], hb, _, _ => simp at hb
    | _ :: _ :: _ :: _, _, _, [_], hb, _, _ => simp at hb; omega
    | _ :: _ :: _ :: _, _, _, [_, _], hb, _, _ => simp at hb; omega

theorem uuid.hexLower_injective {m n : Nat} (hm : m < 16) (hn : n < 16)
    (h : uuid.hexLower m = uuid.hexLower n) : m = n := by
  have := congrArg Char.toNat h
  unfold uuid.hexLower at this
  rw [URL.toNat_ofNat_of_lt (by split <;> omega), URL.toNat_ofNat_of_lt (by split <;> omega)]
    at this
  split_ifs at this <;> omega

theorem uuid.hexLower_facts : ∀ n, n < 16 →
    JS.isUrlSafeChar (uuid.hexLower n) = true ∧ uuid.hexLower n ≠ '-' := by
  decide

theorem uuid.filter_stringifyFrom (i : Nat) (l : List Nat) (hlt : ∀ x ∈ l, x < 256) :
    (uuid.stringifyFrom i l).filter (fun c => c != '-') = l.flatMap uuid.byteToHex := by
  induction l generalizing i with
  | nil => rfl
  | cons b rest ih =>
    have hb : b < 256 := hlt b (by simp)
    have h1 := (uuid.hexLower_facts (b / 16) (by omega)).2
    have h2 := (uuid.hexLower_facts (b % 16) (by omega)).2
    have hrest := ih (i + 1) (fun x hx => hlt x (by simp [hx]))
    simp only [uuid.stringifyFrom, List.filter_append, hrest, List.flatMap_cons]
    congr 1
    split <;> simp [uuid.byteToHex, h1, h2]

theorem uuid.flatMap_byteToHex_injective (a b : List Nat) (hlen : a.length = b.length)
    (hlta : ∀ x ∈ a, x < 256) (hltb : ∀ x ∈ b, x < 256)
    (h : a.flatMap uuid.byteToHex = b.flatMap uuid.byteToHex) : a = b := by
  induction a generalizing b with
  | nil =>
    cases b with
    | nil => rfl
    | cons _ _ => simp at hlen
  | cons x ra ih =>
    cases b with
    | nil => simp at hlen
    | cons y rb =>
      have hx : x < 256 := hlta x (by simp)
      have hy : y < 256 := hltb y (by simp)
      simp only [List.flatMap_cons, uuid.byteToHex, List.cons_append, List.nil_append,
        List.cons.injEq] at h
      obtain ⟨h1, h2, hrest⟩ := h
      have e1 := uuid.hexLower_injective (by omega) (by omega) h1
      have e2 := uuid.hexLower_injective (by omega) (by omega) h2
      have exy : x = y := by omega
      have := ih rb (by simpa using hlen) (fun z hz => hlta z (by simp [hz]))
        (fun z hz => hltb z (by simp [hz])) hrest
      rw [exy, this]

theorem uuid.versioned_facts (a : List Nat) (hlt : ∀ x ∈ a, x < 256) :
    (uuid.versioned a).length = a.length ∧ ∀ x ∈ uuid.versioned a, x < 256 := by
  refine ⟨by simp [uuid.versioned], ?_⟩
  intro x hx
  unfold uuid.versioned at hx
  rcases List.mem_or_eq_of_mem_set hx with h | h
  · rcases List.mem_or_eq_of_mem_set h with h | h
    · exact hlt x h
    · omega
  · omega

theorem utils.generateCorexId_base64url (randomBytes : Nat → List Nat) :
    (utils.generateCorexId randomBytes).data =
      'c' :: 'x' :: '_' :: JS.base64url (randomBytes 9) := rfl

theorem registerController.generateCorexId_v4_data (rnds : List Nat)
    (hlt : ∀ x ∈ rnds, x < 256) :
    (registerController.generateCorexId (uuid.v4 rnds)).data =
      'c' :: 'x' :: '_' :: (uuid.versioned rnds).flatMap uuid.byteToHex := by
  have h := uuid.filter_stringifyFrom 0 (uuid.versioned rnds) (uuid.versioned_facts rnds hlt).2
  show 'c' :: 'x' :: '_' :: (uuid.stringifyFrom 0 (uuid.versioned rnds)).filter
    (fun c => c != '-') = _
  rw [h]

theorem uuid.flatMap_byteToHex_facts (l : List Nat) (hlt : ∀ x ∈ l, x < 256) :
    (l.flatMap uuid.byteToHex).length = 2 * l.length ∧
    ∀ c ∈ l.flatMap uuid.byteToHex, JS.isUrlSafeChar c = true := by
  induction l with
  | nil => simp
  | cons b rest ih =>
    have hb : b < 256 := hlt b (by simp)
    obtain ⟨hl, hs⟩ := ih (fun x hx => hlt x (by simp [hx]))
    refine ⟨by simp [uuid.byteToHex, hl]; omega, ?_⟩
    intro c hc
    simp only [List.flatMap_cons, uuid.byteToHex, List.cons_append, List.nil_append,
      List.mem_cons] at hc
    rcases hc with rfl | rfl | hc
    · exact (uuid.hexLower_facts _ (by omega)).1
    · exact (uuid.hexLower_facts _ (by omega)).1
    · exact hs c hc

theorem uuid.versioned_injective (a b : List Nat) (ha : a.length = 16) (hb : b.length = 16)
    (h : uuid.versioned a = uuid.versioned b) :
    (∀ i, i ≠ 6 → i ≠ 8 → a[i]? = b[i]?) ∧
    a.getD 6 0 % 16 = b.getD 6 0 % 16 ∧ a.getD 8 0 % 64 = b.getD 8 0 % 64 := by
  refine ⟨?_, ?_, ?_⟩
  · intro i h6 h8
    have := congrArg (fun l => l[i]?) h
    simpa [uuid.versioned, List.getElem?_set, Ne.symm h6, Ne.symm h8] using this
  · have := congrArg (fun l => l[6]?) h
    unfold uuid.versioned at this
    generalize a.getD 6 0 = x6 at this ⊢
    generalize b.getD 6 0 = y6 at this ⊢
    generalize a.getD 8 0 = x8 at this
    generalize b.getD 8 0 = y8 at this
    simp [List.getElem?_set, ha, hb] at this
    omega
  · have := congrArg (fun l => l[8]?) h
    unfold uuid.versioned at this
    generalize a.getD 8 0 = x8 at this ⊢
    generalize b.getD 8 0 = y8 at this ⊢
    generalize a.getD 6 0 = x6 at this
    generalize b.getD 6 0 = y6 at this
    simp [List.getElem?_set, ha, hb] at this
    omega

theorem JS.isUrlSafeChar_not_dot_or_padding (c : Char) (h : JS.isUrlSafeChar c = true) :
    c ≠ '.' ∧ c ≠ '=' := by
  constructor <;>
  · rintro rfl
    revert h
    decide

/-- C11, as amended. `generateCorexId` of src/utils/generateCorexId.js returns
`cx_` followed by 12 letters of `[A-Za-z0-9_-]` that encode the 9 bytes (72
bits) drawn from the random source injectively. `generateCorexId` of the two
controllers, which are the same function, returns `cx_` followed by 32 letters
of `[A-Za-z0-9_-]` (lower-case hex digits) that encode injectively the 16 bytes
drawn from the random source except the four bits of byte 6 and the two bits of
byte 8 that `uuidv4` overwrites (122 bits). A letter of `[A-Za-z0-9_-]` is
neither the padding character `=` nor a dot. -/
theorem generateCorexId_format (r1 r2 : Nat → List Nat) (a b : List Nat)
    (h1 : (r1 9).length = 9 ∧ ∀ x ∈ r1 9, x < 256)
    (h2 : (r2 9).length = 9 ∧ ∀ x ∈ r2 9, x < 256)
    (ha : a.length = 16 ∧ ∀ x ∈ a, x < 256)
    (hb : b.length = 16 ∧ ∀ x ∈ b, x < 256) :
    (∃ comp, (utils.generateCorexId r1).data = 'c' :: 'x' :: '_' :: comp ∧
      comp.length = 12 ∧ ∀ c ∈ comp, JS.isUrlSafeChar c = true) ∧
    (utils.generateCorexId r1 = utils.generateCorexId r2 → r1 9 = r2 9) ∧
    (∃ comp, (registerController.generateCorexId (uuid.v4 a)).data =
        'c' :: 'x' :: '_' :: comp ∧
      comp.length = 32 ∧ ∀ c ∈ comp, JS.isUrlSafeChar c = true) ∧
    (registerController.generateCorexId (uuid.v4 a) =
        registerController.generateCorexId (uuid.v4 b) →
      (∀ i, i ≠ 6 → i ≠ 8 → a[i]? = b[i]?) ∧
      a.getD 6 0 % 16 = b.getD 6 0 % 16 ∧ a.getD 8 0 % 64 = b.getD 8 0 % 64) ∧
    proxyJsonController.generateCorexId = registerController.generateCorexId ∧
    ∀ c, JS.isUrlSafeChar c = true → c ≠ '.' ∧ c ≠ '=' := by
  have hva := uuid.versioned_facts a ha.2
  have hvb := uuid.versioned_facts b hb.2
  refine ⟨?_, ?_, ?_, ?_, rfl, JS.isUrlSafeChar_not_dot_or_padding⟩
  · obtain ⟨hl, hs⟩ := JS.base64url_triples 3 (r1 9) h1.1 h1.2
    exact ⟨JS.base64url (r1 9), utils.generateCorexId_base64url r1, hl, hs⟩
  · intro h
    have hd := congrArg String.data h
    rw [utils.generateCorexId_base64url, utils.generateCorexId_base64url] at hd
    simp only [List.cons.injEq, true_and] at hd
    exact JS.base64url_injective 3 _ _ h1.1 h2.1 h1.2 h2.2 hd
  · obtain ⟨hl, hs⟩ := uuid.flatMap_byteToHex_facts (uuid.versioned a) hva.2
    refine ⟨_, registerController.generateCorexId_v4_data a ha.2, ?_, hs⟩
    rw [hl, hva.1, ha.1]
  · intro h
    have hd := congrArg String.data h
    rw [registerController.generateCorexId_v4_data a ha.2,
      registerController.generateCorexId_v4_data b hb.2] at hd
    simp only [List.cons.injEq, true_and] at hd
    have hv := uuid.flatMap_byteToHex_injective _ _ (by rw [hva.1, hvb.1, ha.1, hb.1])
      hva.2 hvb.2 hd
    exact uuid.versioned_injective a b ha.1 hb.1 hv

/-- C11, at two random buffers of 9 bytes and two of 16 bytes. -/
theorem generateCorexId_format_witness :
    (∃ comp, (utils.generateCorexId (fun n => List.replicate n 0)).data =
        'c' :: 'x' :: '_' :: comp ∧
      comp.length = 12 ∧ ∀ c ∈ comp, JS.isUrlSafeChar c = true) ∧
    (utils.generateCorexId (fun n => List.replicate n 0) =
        utils.generateCorexId (fun n => List.replicate n 255) →
      (fun n => List.replicate n 0) 9 = (fun n => List.replicate n 255) 9) ∧
    (∃ comp, (registerController.generateCorexId (uuid.v4
        [0x9b, 0x1d, 0xeb, 0x4d, 0x3b, 0x7d, 0xfb, 0xad, 0x1b, 0xdd, 0x2b, 0x0d, 0x7b, 0x3d,
          0xcb, 0x6d])).data = 'c' :: 'x' :: '_' :: comp ∧
      comp.length = 32 ∧ ∀ c ∈ comp, JS.isUrlSafeChar c = true) ∧
    (registerController.generateCorexId (uuid.v4
        [0x9b, 0x1d, 0xeb, 0x4d, 0x3b, 0x7d, 0xfb, 0xad, 0x1b, 0xdd, 0x2b, 0x0d, 0x7b, 0x3d,
          0xcb, 0x6d]) =
        registerController.generateCorexId (uuid.v4 (List.replicate 16 7)) →
      (∀ i, i ≠ 6 → i ≠ 8 →
        [0x9b, 0x1d, 0xeb, 0x4d, 0x3b, 0x7d, 0xfb, 0xad, 0x1b, 0xdd, 0x2b, 0x0d, 0x7b, 0x3d,
          0xcb, 0x6d][i]? = (List.replicate 16 7)[i]?) ∧
      [0x9b, 0x1d, 0xeb, 0x4d, 0x3b, 0x7d, 0xfb, 0xad, 0x1b, 0xdd, 0x2b, 0x0d, 0x7b, 0x3d,
        0xcb, 0x6d].getD 6 0 % 16 = (List.replicate 16 7).getD 6 0 % 16 ∧
      [0x9b, 0x1d, 0xeb, 0x4d, 0x3b, 0x7d, 0xfb, 0xad, 0x1b, 0xdd, 0x2b, 0x0d, 0x7b, 0x3d,
        0xcb, 0x6d].getD 8 0 % 64 = (List.replicate 16 7).getD 8 0 % 64) ∧
    proxyJsonController.generateCorexId = registerController.generateCorexId ∧
    ∀ c, JS.isUrlSafeChar c = true → c ≠ '.' ∧ c ≠ '=' :=
  generateCorexId_format (fun n => List.replicate n 0) (fun n => List.replicate n 255)
    [0x9b, 0x1d, 0xeb, 0x4d, 0x3b, 0x7d, 0xfb, 0xad, 0x1b, 0xdd, 0x2b, 0x0d, 0x7b, 0x3d, 0xcb,
      0x6d] (List.replicate 16 7) (by decide) (by decide) (by decide) (by decide)

/-- C11, counterexample. With a random source that returns zero bytes,
`generateCorexId` of src/utils/generateCorexId.js returns `cx_AAAAAAAAAAAA`:
the random component has 12 letters of 6 bits each. The function reads 9 bytes
from the random source, so no 2^96 random buffers can give identifiers that
are pairwise different: the identifier does not encode 96 bits. -/
theorem generateCorexId_utils_72_bits :
    utils.generateCorexId (fun n => List.replicate n 0) = "cx_AAAAAAAAAAAA" ∧
    ¬ ∃ g : Fin (2 ^ 96) → (Fin 9 → Fin 256),
      Function.Injective (fun x =>
        utils.generateCorexId (fun _ => List.ofFn (fun i => (g x i).val))) := by
  refine ⟨by decide, ?_⟩
  rintro ⟨g, hg⟩
  have hinj : Function.Injective g := fun x y hxy => hg (by simp only [hxy])
  have hcard := Fintype.card_le_of_injective g hinj
  simp only [Fintype.card_fin, Fintype.card_fun] at hcard
  norm_num at hcard
